import Mathlib

/-!
# MtGox API client (Go): request construction and signing

A shallow embedding of `src/go/mtgox/mtgox.go`.

* Go strings are byte sequences, so a Go `string` is a `List UInt8`; slicing
  (`Path[0:1]`, `Path[2:]`) counts bytes.
* A Go function that can panic returns an `Outcome`; a function returning an
  `error` returns `Option Error` (`none` is Go's `nil`).
* `auth` mutates the request it is given through a pointer; here it returns the
  request as it stands when `auth` returns, together with the error.
* The wall clock (`time.Now().UnixNano()`) is an explicit argument.
* The standard-library functions that the package calls and that are small and
  decide behaviour (`strconv.ParseInt`, `strconv.FormatInt`, `strings.TrimLeft`,
  `base64.StdEncoding`, `url.QueryEscape`, `url.Values`) are written out after
  their Go definitions. HMAC-SHA512, URL parsing and printing, float formatting,
  the request dump and the HTTP transport are fields of `Stdlib`: the package
  is verified for every behaviour of those.
-/

namespace Mtgox

/-! ## Strings -/

/-- A Go string: an immutable sequence of bytes. -/
abbrev GoString := List UInt8

/-- The bytes (UTF-8) of a string literal. -/
def lit (s : String) : GoString := s.toList.flatMap String.utf8EncodeChar

/-- Go `strings.TrimLeft(s, "/")`: drop every leading byte `/`. -/
def TrimLeft : GoString → GoString
  | [] => []
  | c :: cs => if c = 47 then TrimLeft cs else c :: cs

/-! ## Errors and outcomes -/

deriving instance DecidableEq for Except

/-- The two error causes of `strconv` (`ErrSyntax`, `ErrRange`). -/
inductive NumCause
  | ErrSyntax
  | ErrRange
  deriving DecidableEq, Repr

/-- The error values that can leave `auth` and `Call`. -/
inductive Error
  /-- `*strconv.NumError{Func, Num, Err}`. -/
  | NumError (func num : GoString) (cause : NumCause)
  /-- The package's own `InvalidVersion(version)`. -/
  | InvalidVersion (version : Int)
  /-- `base64.CorruptInputError` (the byte offset it carries is not modelled). -/
  | CorruptInputError
  /-- An error of `url.Parse` or `http.NewRequest`. -/
  | UrlError (msg : GoString)
  /-- An error of `httputil.DumpRequestOut`. -/
  | DumpError (msg : GoString)
  /-- An error of `client.Do` or of reading the response body. -/
  | TransportError (msg : GoString)
  deriving DecidableEq, Repr

/-- What a Go function call does: it returns, or it panics (here always a slice
bound out of range or a nil dereference). -/
inductive Outcome (α : Type)
  | ret (a : α)
  | panic
  deriving DecidableEq, Repr

/-! ## strconv -/

/-- The decimal digits of `n`, most significant first, in front of `acc`. -/
def digitsAux : Nat → Nat → GoString → GoString
  | 0, _, acc => acc
  | fuel + 1, n, acc =>
    if n < 10 then UInt8.ofNat (48 + n) :: acc
    else digitsAux fuel (n / 10) (UInt8.ofNat (48 + n % 10) :: acc)

/-- Go `strconv.FormatUint(n, 10)`. -/
def FormatUint (n : Nat) : GoString := digitsAux (n + 1) n []

/-- Go `strconv.FormatInt(i, 10)` (and `strconv.Itoa`). -/
def FormatInt (i : Int) : GoString :=
  if i < 0 then 45 :: FormatUint i.natAbs else FormatUint i.natAbs

/-- The digit loop of Go `strconv.ParseUint(s, 10, bitSize)`: the first byte that
is not a digit is a syntax error, the first step that exceeds `maxVal` a range
error. -/
def parseUintLoop (maxVal : Nat) : GoString → Nat → Except NumCause Nat
  | [], n => .ok n
  | c :: cs, n =>
    if 48 ≤ c ∧ c ≤ 57 then
      let n1 := n * 10 + (c.toNat - 48)
      if n1 > maxVal then .error .ErrRange else parseUintLoop maxVal cs n1
    else .error .ErrSyntax

/-- Go `strconv.ParseUint(s, 10, bitSize)`. -/
def ParseUint (s : GoString) (bitSize : Nat) : Except NumCause Nat :=
  match s with
  | [] => .error .ErrSyntax
  | _ :: _ => parseUintLoop (2 ^ bitSize - 1) s 0

/-- Go `strconv.ParseInt(s, 10, bitSize)`. -/
def ParseInt (s : GoString) (bitSize : Nat) : Except Error Int :=
  match s with
  | [] => .error (.NumError (lit "ParseInt") s .ErrSyntax)
  | c :: cs =>
    let neg : Bool := c = 45
    let digits := if c = 43 ∨ c = 45 then cs else s
    match ParseUint digits bitSize with
    | .error cause => .error (.NumError (lit "ParseInt") s cause)
    | .ok un =>
      let cutoff := 2 ^ (bitSize - 1)
      if !neg && un ≥ cutoff then .error (.NumError (lit "ParseInt") s .ErrRange)
      else if neg && un > cutoff then .error (.NumError (lit "ParseInt") s .ErrRange)
      else .ok (if neg then - (un : Int) else (un : Int))

/-! ## encoding/base64, `StdEncoding` -/

/-- The value of a byte of the standard alphabet `A-Z a-z 0-9 + /`. -/
def b64Value (c : UInt8) : Option Nat :=
  if 65 ≤ c ∧ c ≤ 90 then some (c.toNat - 65)
  else if 97 ≤ c ∧ c ≤ 122 then some (c.toNat - 97 + 26)
  else if 48 ≤ c ∧ c ≤ 57 then some (c.toNat - 48 + 52)
  else if c = 43 then some 62
  else if c = 47 then some 63
  else none

/-- The quanta of a padded base64 text from which `\r` and `\n` are removed:
four alphabet bytes give three bytes; the last quantum may end in `=` (two
bytes) or `==` (one byte), and nothing may follow it. The decoder is not
strict: the unused low bits of a padded quantum are ignored. -/
def decodeQuanta : GoString → Option (List UInt8)
  | [] => some []
  | a :: b :: c :: d :: rest =>
    match b64Value a, b64Value b with
    | some x, some y =>
      match b64Value c, b64Value d with
      | some z, some w =>
        let val := x * 262144 + y * 4096 + z * 64 + w
        match decodeQuanta rest with
        | some out =>
          some (UInt8.ofNat (val / 65536) :: UInt8.ofNat (val / 256 % 256)
            :: UInt8.ofNat (val % 256) :: out)
        | none => none
      | some z, none =>
        if d = 61 ∧ rest = [] then
          let val := x * 262144 + y * 4096 + z * 64
          some [UInt8.ofNat (val / 65536), UInt8.ofNat (val / 256 % 256)]
        else none
      | none, _ =>
        if c = 61 ∧ d = 61 ∧ rest = [] then
          let val := x * 262144 + y * 4096
          some [UInt8.ofNat (val / 65536)]
        else none
    | _, _ => none
  | _ => none

/-- Go `base64.StdEncoding.DecodeString(s)`: `\r` and `\n` are skipped wherever
they stand, the rest is decoded quantum by quantum. -/
def DecodeString (s : GoString) : Except Error (List UInt8) :=
  match decodeQuanta (s.filter fun c => !(c = 10 || c = 13)) with
  | some out => .ok out
  | none => .error .CorruptInputError

/-- The byte of the standard alphabet for a 6-bit value. -/
def b64Char (n : Nat) : UInt8 :=
  if n < 26 then UInt8.ofNat (65 + n)
  else if n < 52 then UInt8.ofNat (97 + (n - 26))
  else if n < 62 then UInt8.ofNat (48 + (n - 52))
  else if n = 62 then 43
  else 47

/-- Go `base64.StdEncoding.EncodeToString(src)`. -/
def EncodeToString : List UInt8 → GoString
  | [] => []
  | [a] =>
    let val := a.toNat * 65536
    [b64Char (val / 262144), b64Char (val / 4096 % 64), 61, 61]
  | [a, b] =>
    let val := a.toNat * 65536 + b.toNat * 256
    [b64Char (val / 262144), b64Char (val / 4096 % 64), b64Char (val / 64 % 64), 61]
  | a :: b :: c :: rest =>
    let val := a.toNat * 65536 + b.toNat * 256 + c.toNat
    b64Char (val / 262144) :: b64Char (val / 4096 % 64) :: b64Char (val / 64 % 64)
      :: b64Char (val % 64) :: EncodeToString rest

/-! ## net/url -/

/-- Go `url.QueryEscape`: letters, digits and `- _ . ~` stand for themselves, a
space becomes `+`, every other byte becomes `%XX` in upper-case hexadecimal. -/
def shouldEscape (c : UInt8) : Bool :=
  !((97 ≤ c && c ≤ 122) || (65 ≤ c && c ≤ 90) || (48 ≤ c && c ≤ 57)
    || c = 45 || c = 95 || c = 46 || c = 126)

/-- The upper-case hexadecimal digit of a value below 16. -/
def upperhex (n : Nat) : UInt8 :=
  if n < 10 then UInt8.ofNat (48 + n) else UInt8.ofNat (65 + (n - 10))

/-- Go `url.QueryEscape(s)`. -/
def QueryEscape (s : GoString) : GoString :=
  s.flatMap fun c =>
    if c = 32 then [43]
    else if shouldEscape c then [37, upperhex (c.toNat / 16), upperhex (c.toNat % 16)]
    else [c]

/-- Go `url.Values`, a `map[string][]string`: one entry per key, the order of
the entries carries no meaning. -/
abbrev Values := List (GoString × List GoString)

/-- The values under `key` (Go `v[key]`, empty when the key is absent). -/
def Values.lookup : Values → GoString → List GoString
  | [], _ => []
  | (k, vs) :: rest, key => if k = key then vs else Values.lookup rest key

/-- Go `v.Add(key, value)`: `v[key] = append(v[key], value)`. -/
def Values.Add : Values → GoString → GoString → Values
  | [], key, value => [(key, [value])]
  | (k, vs) :: rest, key, value =>
    if k = key then (k, vs ++ [value]) :: rest else (k, vs) :: Values.Add rest key value

/-- Go's order on strings, `a <= b`: bytewise lexicographic. -/
def strLE : GoString → GoString → Bool
  | [], _ => true
  | _ :: _, [] => false
  | a :: as, b :: bs => a < b || (a = b && strLE as bs)

/-- Insert a key into a list of keys in ascending order. -/
def insertKey (k : GoString) : List GoString → List GoString
  | [] => [k]
  | x :: xs => if strLE k x then k :: x :: xs else x :: insertKey k xs

/-- The keys in ascending order (`slices.Sort(keys)` in `Encode`). -/
def sortKeys (keys : List GoString) : List GoString := keys.foldr insertKey []

/-- Go `v.Encode()`: for every key in ascending order and every value under it in
order, `QueryEscape(key)=QueryEscape(value)`, with `&` written before each pair
when the buffer is not empty. -/
def Values.Encode (v : Values) : GoString :=
  (sortKeys (v.map Prod.fst)).foldl
    (fun buf k =>
      (v.lookup k).foldl
        (fun buf val =>
          (if buf.length > 0 then buf ++ [38] else buf)
            ++ QueryEscape k ++ [61] ++ QueryEscape val)
        buf)
    []

/-- Go `url.URL`, the fields that `Parse` fills and `String` prints. -/
structure URL where
  Scheme : GoString
  Opaque : GoString
  Host : GoString
  Path : GoString
  RawPath : GoString
  ForceQuery : Bool
  RawQuery : GoString
  Fragment : GoString
  deriving DecidableEq, Repr

/-! ## net/http -/

/-- Go `http.Header`, a `map[string][]string`. The three keys the package adds
(`Rest-Key`, `Rest-Sign`, `Content-Type`) are already in canonical form, so that
`Header.Add` is `Values.Add`. -/
abbrev Header := Values

/-- Go `http.Request`, the fields the package sets: the body is the content of
the reader, `none` for a nil body. -/
structure HttpRequest where
  Method : GoString
  URL : URL
  Header : Header
  Body : Option GoString
  ContentLength : Int
  deriving DecidableEq, Repr

/-- The standard-library and network behaviour the package is verified against,
for every value of each field. -/
structure Stdlib where
  /-- `hmac.New(sha512.New, key)`, `Write(message)`, `Sum(nil)`. -/
  hmacSha512 : List UInt8 → List UInt8 → List UInt8
  /-- `url.Parse`. -/
  urlParse : GoString → Except Error URL
  /-- `(*url.URL).String`. -/
  urlString : URL → GoString
  /-- `strconv.FormatFloat(f, 'f', -1, 64)` of the float64 with these bits. -/
  formatFloat64 : Nat → GoString
  /-- `strconv.FormatFloat(float64(f), 'f', -1, 32)` of the float32 with these bits. -/
  formatFloat32 : Nat → GoString
  /-- `httputil.DumpRequestOut(request, true)`. -/
  dumpRequestOut : HttpRequest → Except Error GoString
  /-- `client.Do(request)` followed by `ioutil.ReadAll(resp.Body)`. -/
  clientDo : HttpRequest → Except Error GoString

/-- Go `http.NewRequest(method, urlStr, nil)` for a valid method: the URL is
parsed; the new request has an empty header and no body. -/
def NewRequest (lib : Stdlib) (method urlStr : GoString) : Except Error HttpRequest :=
  match lib.urlParse urlStr with
  | .error err => .error err
  | .ok u => .ok { Method := method, URL := u, Header := [], Body := none, ContentLength := 0 }

/-! ## package mtgox -/

/-- The constants `Auto`, `Public`, `Private` of type `AuthType`. -/
inductive AuthType
  | Auto
  | Public
  | Private
  deriving DecidableEq, Repr

/-- The struct `Api`. -/
structure Api where
  ApiKey : GoString
  ApiSecret : GoString
  Auth : AuthType
  Debug : Bool
  deriving DecidableEq, Repr

/-- The struct `Request`; `HttpRequest` is a pointer, `none` when nil. -/
structure Request where
  HttpRequest : Option HttpRequest
  Path : GoString
  Parameters : Values
  deriving DecidableEq, Repr

/-- Conversion of an integer to `int8`, as in `InvalidVersion(version)`. -/
def toInt8 (v : Int) : Int := (v + 128) % 256 - 128

/-- The function `NewApi`. -/
def NewApi (key secret : GoString) : Api := ⟨key, secret, .Auto, false⟩

/-- A value of type `interface{}` by its dynamic type: the types the type
switch of `parseParameters` names, the other signed integer types, and
everything else. Integers are their values, floats their bit patterns. -/
inductive Value
  | string (s : GoString)
  | int (n : Int)
  | int8 (n : Int)
  | int16 (n : Int)
  | int32 (n : Int)
  | int64 (n : Int)
  | float64 (bits : Nat)
  | float32 (bits : Nat)
  | bool (b : Bool)
  | other
  deriving DecidableEq, Repr

/-- The function `parseParameters`; the map is given as its entries in the
order in which `range` visits them. -/
def parseParameters (lib : Stdlib) (params : List (GoString × Value)) : Values :=
  params.foldl
    (fun parameters entry =>
      match entry.2 with
      | .string s => parameters.Add entry.1 s
      | .int n => parameters.Add entry.1 (FormatInt n)
      | .int64 n => parameters.Add entry.1 (FormatInt n)
      | .float64 bits => parameters.Add entry.1 (lib.formatFloat64 bits)
      | .float32 bits => parameters.Add entry.1 (lib.formatFloat32 bits)
      | .bool b => if b then parameters.Add entry.1 (lit "1") else parameters.Add entry.1 (lit "0")
      | _ => parameters)
    []

/-- The method `Public`. -/
def Api.Public (api : Api) : Api := { api with Auth := .Public }

/-- The method `Private`. -/
def Api.Private (api : Api) : Api := { api with Auth := .Private }

/-- The method `Auto`. -/
def Api.Auto (api : Api) : Api := { api with Auth := .Auto }

/-- Lines 111-116 of `auth`: the data to sign. `request.Path[2:]` panics on a
path shorter than two bytes. -/
def encodedData (version : Int) (request : Request) : Outcome GoString :=
  let encodedData := request.Parameters.Encode
  if version = 2 then
    if request.Path.length < 2 then .panic
    else .ret (request.Path.drop 2 ++ [0] ++ encodedData)
  else .ret encodedData

/-- Lines 92-116 of `auth`, up to the HMAC: the request as it stands, and
either the error `auth` returns or the decoded secret with the data to sign.
`request.Path[0:1]` panics on the empty path. -/
def Api.authData (api : Api) (now : Int) (request : Request) :
    Outcome (Request × Except Error (List UInt8 × GoString)) :=
  match request.Path with
  | [] => .panic
  | c :: _ =>
    match ParseInt [c] 8 with
    | .error err => .ret (request, .error err)
    | .ok version =>
      if version < 0 ∨ version > 2 then
        .ret (request, .error (.InvalidVersion (toInt8 version)))
      else
        let request := { request with
          Parameters := request.Parameters.Add (lit "tonce") (FormatInt (Int.tdiv now 1000)) }
        match DecodeString api.ApiSecret with
        | .error err => .ret (request, .error err)
        | .ok secret =>
          match encodedData version request with
          | .panic => .panic
          | .ret data => .ret (request, .ok (secret, data))

/-- The method `auth`: the request as `auth` leaves it and the error it returns
(`none` for nil). `now` is `time.Now().UnixNano()`. -/
def Api.auth (lib : Stdlib) (api : Api) (now : Int) (request : Request) :
    Outcome (Request × Option Error) :=
  match api.authData now request with
  | .panic => .panic
  | .ret (request, .error err) => .ret (request, some err)
  | .ret (request, .ok (secret, data)) =>
    let signature := EncodeToString (lib.hmacSha512 secret data)
    match request.HttpRequest with
    | none => .panic
    | some h =>
      .ret ({ request with HttpRequest := some { h with
          Header := (h.Header.Add (lit "Rest-Key") api.ApiKey).Add (lit "Rest-Sign") signature } },
        none)

/-- The condition of line 150, `// do auth only if key+secret are provided`. -/
def Api.doAuth (api : Api) : Bool :=
  api.Auth = .Private || (api.Auth = .Auto && api.ApiKey ≠ [] && api.ApiSecret ≠ [])

/-- Lines 151-167 of `Call`, the branch that signs. -/
def Api.callPrivate (lib : Stdlib) (api : Api) (now : Int) (request : Request) (url : URL) :
    Outcome (Except Error HttpRequest) :=
  let url := { url with Host := lit "mtgox.com" }
  match NewRequest lib (lit "POST") (lib.urlString url) with
  | .error err => .ret (.error err)
  | .ok h =>
    match api.auth lib now { request with HttpRequest := some h } with
    | .panic => .panic
    | .ret (_, some err) => .ret (.error err)
    | .ret (request, none) =>
      match request.HttpRequest with
      | none => .panic
      | some h =>
        let postBuffer := request.Parameters.Encode
        .ret (.ok { h with
          Body := some postBuffer
          ContentLength := postBuffer.length
          Header := h.Header.Add (lit "Content-Type") (lit "application/x-www-form-urlencoded") })

/-- Lines 169-176 of `Call`, the branch that does not sign. -/
def Api.callPublic (lib : Stdlib) (parameters : Values) (url : URL) :
    Outcome (Except Error HttpRequest) :=
  let url := if parameters.length > 0 then { url with RawQuery := parameters.Encode } else url
  match NewRequest lib (lit "GET") (lib.urlString url) with
  | .error err => .ret (.error err)
  | .ok h => .ret (.ok h)

/-- Lines 132-177 of `Call`: the HTTP request that `Call` builds, or the error
it returns before it has one. -/
def Api.buildRequest (lib : Stdlib) (api : Api) (now : Int) (path : GoString)
    (params : List (GoString × Value)) : Outcome (Except Error HttpRequest) :=
  let path := TrimLeft path
  let parameters := parseParameters lib params
  let request : Request := ⟨none, path, parameters⟩
  match lib.urlParse (lit "https://data.mtgox.com/api/" ++ path) with
  | .error err => .ret (.error err)
  | .ok url =>
    if api.doAuth then api.callPrivate lib now request url
    else Api.callPublic lib parameters url

/-- What a call of `Call` does: the requests it hands to `client.Do`, and the
`(string, error)` it returns unless it panics. -/
structure CallResult where
  sent : List HttpRequest
  result : Outcome (GoString × Option Error)
  deriving DecidableEq, Repr

/-- The method `Call`. The text that `Debug` prints is not modelled. -/
def Api.Call (lib : Stdlib) (api : Api) (now : Int) (path : GoString)
    (params : List (GoString × Value)) : CallResult :=
  match api.buildRequest lib now path params with
  | .panic => ⟨[], .panic⟩
  | .ret (.error err) => ⟨[], .ret ([], some err)⟩
  | .ret (.ok h) =>
    match (if api.Debug then lib.dumpRequestOut h else .ok []) with
    | .error err => ⟨[], .ret ([], some err)⟩
    | .ok _ =>
      match lib.clientDo h with
      | .error err => ⟨[h], .ret ([], some err)⟩
      | .ok body => ⟨[h], .ret (body, none)⟩

/-- A stand-in for the standard library, to evaluate the package on concrete
inputs: the MAC is the key followed by the message, a URL is `https://`, a host
up to the first `/`, a path up to the first `?` and a query; floats print as
`0`; the transport answers with an empty JSON object. On a URL
`https://host/path?query` whose host, path and query are written with letters,
digits and `/ . - _ = &` only, `urlParse` and `urlString` give what `url.Parse`
and `(*URL).String` give. -/
def sampleLib : Stdlib where
  hmacSha512 := fun key message => key ++ message
  urlParse := fun s =>
    if (s.take 8 = lit "https://") then
      let rest := s.drop 8
      let tail := rest.dropWhile (· ≠ 47)
      .ok { Scheme := lit "https", Opaque := [], Host := rest.takeWhile (· ≠ 47),
            Path := tail.takeWhile (· ≠ 63), RawPath := [], ForceQuery := false,
            RawQuery := (tail.dropWhile (· ≠ 63)).drop 1, Fragment := [] }
    else .error (.UrlError s)
  urlString := fun u =>
    u.Scheme ++ lit "://" ++ u.Host ++ u.Path ++ (if u.RawQuery = [] then [] else 63 :: u.RawQuery)
  formatFloat64 := fun _ => lit "0"
  formatFloat32 := fun _ => lit "0"
  dumpRequestOut := fun _ => .ok []
  clientDo := fun _ => .ok (lit "{}")

/-! ## Vocabulary of the statements -/

/-- The version digit of a path: the value of its first byte when that byte is
an ASCII digit. -/
def versionDigit : GoString → Option Nat
  | [] => none
  | c :: _ => if 48 ≤ c ∧ c ≤ 57 then some (c.toNat - 48) else none

/-- The data that `auth` signs for this request at this time, when it gets as
far as signing. -/
def Api.signedData (api : Api) (now : Int) (request : Request) : Option GoString :=
  match api.authData now request with
  | .ret (_, .ok (_, data)) => some data
  | _ => none

/-- The request of `auth` once the nonce is added (line 102). -/
def withTonce (now : Int) (request : Request) : Request :=
  { request with
    Parameters := request.Parameters.Add (lit "tonce") (FormatInt (Int.tdiv now 1000)) }

/-- The request of `auth` once the two headers are added (lines 125-126). -/
def withHeaders (lib : Stdlib) (api : Api) (secret : List UInt8) (data : GoString)
    (request : Request) (h : HttpRequest) : Request :=
  { request with HttpRequest := some { h with
      Header := (h.Header.Add (lit "Rest-Key") api.ApiKey).Add (lit "Rest-Sign")
        (EncodeToString (lib.hmacSha512 secret data)) } }

/-- The request at the end of the signing branch of `Call` (line 167): the new
request `h0` with the two headers of `auth`, the body, its length and the
content type. -/
def signedRequest (lib : Stdlib) (api : Api) (secret : List UInt8) (data : GoString)
    (parameters : Values) (h0 : HttpRequest) : HttpRequest :=
  { h0 with
    Body := some parameters.Encode
    ContentLength := parameters.Encode.length
    Header := (((h0.Header.Add (lit "Rest-Key") api.ApiKey).Add (lit "Rest-Sign")
      (EncodeToString (lib.hmacSha512 secret data))).Add (lit "Content-Type")
      (lit "application/x-www-form-urlencoded")) }

/-- The condition of line 150 in the words of the specification. -/
def resolvesPrivate (api : Api) : Prop :=
  api.Auth = .Private ∨ (api.Auth = .Auto ∧ api.ApiKey ≠ [] ∧ api.ApiSecret ≠ [])

instance (api : Api) : Decidable (resolvesPrivate api) := by
  unfold resolvesPrivate
  infer_instance

/-- A client with a key and a valid base64 secret (the bytes `testsecret`), in
mode `Auto`. -/
def sampleApi : Api := NewApi (lit "key") (lit "dGVzdHNlY3JldA==")

/-- The URL `https://<host>/api/<path>` as `sampleLib` parses it. -/
def sampleUrl (host path : String) : URL :=
  { Scheme := lit "https", Opaque := [], Host := lit host, Path := lit "/api/" ++ lit path,
    RawPath := [], ForceQuery := false, RawQuery := [], Fragment := [] }

/-- A new POST request to `https://mtgox.com/api/<path>`. -/
def samplePost (path : String) : HttpRequest :=
  { Method := lit "POST", URL := sampleUrl "mtgox.com" path, Header := [], Body := none,
    ContentLength := 0 }

/-- The string that the type switch of `parseParameters` adds for a value; none
for a value of a type the switch has no case for. -/
def castToString (lib : Stdlib) : Value → Option GoString
  | .string s => some s
  | .int n => some (FormatInt n)
  | .int64 n => some (FormatInt n)
  | .float64 bits => some (lib.formatFloat64 bits)
  | .float32 bits => some (lib.formatFloat32 bits)
  | .bool b => some (if b then lit "1" else lit "0")
  | _ => none

/-- The text `key=value` of one pair in `Encode`, both sides escaped. -/
def encodePair (k val : GoString) : GoString := QueryEscape k ++ [61] ++ QueryEscape val

/-- The pairs of one key of a `url.Values`, in the order of its values. -/
def pairsOf (v : Values) (k : GoString) : List GoString := (v.lookup k).map (encodePair k)

/-- Strings joined by `&`. -/
def joinAmp : List GoString → GoString
  | [] => []
  | [p] => p
  | p :: q :: rest => p ++ 38 :: joinAmp (q :: rest)

/-- Two association lists that are the same Go map: no key twice, the same
keys, the same values under every key. -/
def sameMap (v w : Values) : Prop :=
  (v.map Prod.fst).Nodup ∧ (w.map Prod.fst).Nodup
    ∧ (∀ k, k ∈ v.map Prod.fst ↔ k ∈ w.map Prod.fst)
    ∧ ∀ k, v.lookup k = w.lookup k

/-! ## Bytes -/

theorem byte_cases (P : UInt8 → Prop) (h : ∀ n : Fin 256, P (UInt8.mk (BitVec.ofFin n)))
    (c : UInt8) : P c := by
  cases c with
  | mk bv =>
    cases bv with
    | ofFin n => exact h n

set_option maxRecDepth 100000 in
theorem ParseInt_byte (c : UInt8) :
    ParseInt [c] 8 =
      if 48 ≤ c ∧ c ≤ 57 then .ok ((c.toNat - 48 : Nat) : Int)
      else .error (.NumError (lit "ParseInt") [c] .ErrSyntax) := by
  revert c
  apply byte_cases
  decide

set_option maxRecDepth 100000 in
theorem digit_toNat (c : UInt8) : (48 ≤ c ∧ c ≤ 57) → c.toNat - 48 ≤ 9 := by
  revert c
  apply byte_cases
  decide

theorem toInt8_small (v : Nat) (h : v ≤ 9) : toInt8 (v : Int) = v := by
  unfold toInt8
  omega

/-! ## The steps of `auth` -/

theorem authData_nil (api : Api) (now : Int) (request : Request) (h : request.Path = []) :
    api.authData now request = .panic := by
  simp [Api.authData, h]

theorem authData_no_digit (api : Api) (now : Int) (request : Request) (c : UInt8)
    (rest : GoString) (h : request.Path = c :: rest) (hd : versionDigit request.Path = none) :
    api.authData now request
      = .ret (request, .error (.NumError (lit "ParseInt") [c] .ErrSyntax)) := by
  have hc : ¬ (48 ≤ c ∧ c ≤ 57) := by
    intro hc
    simp [versionDigit, h, hc] at hd
  simp [Api.authData, h, ParseInt_byte, hc]

theorem authData_bad_version (api : Api) (now : Int) (request : Request) (v : Nat)
    (hd : versionDigit request.Path = some v) (hv : 2 < v) :
    api.authData now request = .ret (request, .error (.InvalidVersion v)) := by
  cases hp : request.Path with
  | nil => simp [versionDigit, hp] at hd
  | cons c rest =>
    by_cases hc : 48 ≤ c ∧ c ≤ 57
    · have h9 := digit_toNat c hc
      simp [versionDigit, hp, hc] at hd
      subst hd
      have hgt : (2 : Int) < ((c.toNat - 48 : Nat) : Int) := by exact_mod_cast hv
      simp [Api.authData, hp, ParseInt_byte, hc, hgt, toInt8_small _ h9]
    · simp [versionDigit, hp, hc] at hd

theorem authData_version (api : Api) (now : Int) (request : Request) (v : Nat)
    (hd : versionDigit request.Path = some v) (hv : v ≤ 2) :
    api.authData now request =
      match DecodeString api.ApiSecret with
      | .error err => .ret (withTonce now request, .error err)
      | .ok secret =>
        match encodedData v (withTonce now request) with
        | .panic => .panic
        | .ret data => .ret (withTonce now request, .ok (secret, data)) := by
  cases hp : request.Path with
  | nil => simp [versionDigit, hp] at hd
  | cons c rest =>
    by_cases hc : 48 ≤ c ∧ c ≤ 57
    · simp [versionDigit, hp, hc] at hd
      subst hd
      have hle : ¬ ((2 : Int) < ((c.toNat - 48 : Nat) : Int)) := by
        have : ((c.toNat - 48 : Nat) : Int) ≤ 2 := by exact_mod_cast hv
        omega
      have hnn : ¬ (((c.toNat - 48 : Nat) : Int) < 0) := by omega
      simp only [Api.authData, hp, ParseInt_byte, hc, and_self, if_true, gt_iff_lt, hle, hnn,
        or_self, if_false, withTonce]
    · simp [versionDigit, hp, hc] at hd

theorem DecodeString_error (s : GoString) (e : Error) (h : DecodeString s = .error e) :
    e = .CorruptInputError := by
  unfold DecodeString at h
  split at h
  · cases h
  · cases h
    rfl

theorem encodedData_cases (v : Nat) (request : Request) :
    (v = 2 ∧ request.Path.length < 2 ∧ encodedData v request = .panic)
    ∨ (v = 2 ∧ 2 ≤ request.Path.length
        ∧ encodedData v request
          = .ret (request.Path.drop 2 ++ [0] ++ request.Parameters.Encode))
    ∨ (v ≠ 2 ∧ encodedData v request = .ret request.Parameters.Encode) := by
  by_cases h2 : v = 2
  · by_cases hl : request.Path.length < 2
    · left
      simp [encodedData, h2, hl]
    · right
      left
      refine ⟨h2, by omega, ?_⟩
      simp [encodedData, h2, hl]
  · right
    right
    have : ¬ ((v : Int) = 2) := by exact_mod_cast h2
    simp [encodedData, h2, this]

/-- Every run of the first part of `auth` is one of six: a panic on the empty
path, the `strconv` error, `InvalidVersion`, the base64 error, a panic on a
one-byte path of version 2, or the secret with the data to sign. -/
theorem authData_cases (api : Api) (now : Int) (request : Request) :
    (request.Path = [] ∧ api.authData now request = .panic)
    ∨ (∃ c rest, request.Path = c :: rest ∧ versionDigit request.Path = none
        ∧ api.authData now request
          = .ret (request, .error (.NumError (lit "ParseInt") [c] .ErrSyntax)))
    ∨ (∃ v, versionDigit request.Path = some v ∧ 2 < v
        ∧ api.authData now request = .ret (request, .error (.InvalidVersion v)))
    ∨ (∃ v, versionDigit request.Path = some v ∧ v ≤ 2
        ∧ DecodeString api.ApiSecret = .error .CorruptInputError
        ∧ api.authData now request
          = .ret (withTonce now request, .error .CorruptInputError))
    ∨ (∃ secret, versionDigit request.Path = some 2 ∧ request.Path.length < 2
        ∧ DecodeString api.ApiSecret = .ok secret
        ∧ api.authData now request = .panic)
    ∨ (∃ v secret data, versionDigit request.Path = some v ∧ v ≤ 2
        ∧ DecodeString api.ApiSecret = .ok secret
        ∧ encodedData v (withTonce now request) = .ret data
        ∧ api.authData now request = .ret (withTonce now request, .ok (secret, data))) := by
  cases hp : request.Path with
  | nil => exact Or.inl ⟨rfl, authData_nil api now request hp⟩
  | cons c rest =>
    right
    rw [← hp]
    cases hd : versionDigit request.Path with
    | none => exact Or.inl ⟨c, rest, hp, rfl, authData_no_digit api now request c rest hp hd⟩
    | some v =>
      right
      by_cases hv : 2 < v
      · exact Or.inl ⟨v, rfl, hv, authData_bad_version api now request v hd hv⟩
      · right
        have hv2 : v ≤ 2 := by omega
        have key := authData_version api now request v hd hv2
        cases hs : DecodeString api.ApiSecret with
        | error e =>
          have he := DecodeString_error _ _ hs
          subst he
          left
          refine ⟨v, rfl, hv2, rfl, ?_⟩
          rw [key, hs]
        | ok secret =>
          right
          rw [hs] at key
          rcases encodedData_cases v (withTonce now request) with ⟨h2, hl, he⟩ | ⟨_, _, he⟩ | ⟨_, he⟩
          · left
            subst h2
            refine ⟨secret, rfl, by simpa [withTonce] using hl, rfl, ?_⟩
            rw [key]
            simp only [he]
          · right
            refine ⟨v, secret, _, rfl, hv2, rfl, he, ?_⟩
            rw [key]
            simp only [he]
          · right
            refine ⟨v, secret, _, rfl, hv2, rfl, he, ?_⟩
            rw [key]
            simp only [he]

theorem auth_of_error (lib : Stdlib) (api : Api) (now : Int) (request r : Request) (e : Error)
    (h : api.authData now request = .ret (r, .error e)) :
    api.auth lib now request = .ret (r, some e) := by
  simp [Api.auth, h]

theorem auth_of_panic (lib : Stdlib) (api : Api) (now : Int) (request : Request)
    (h : api.authData now request = .panic) :
    api.auth lib now request = .panic := by
  simp [Api.auth, h]

theorem auth_of_data (lib : Stdlib) (api : Api) (now : Int) (request r : Request)
    (secret : List UInt8) (data : GoString) (h : HttpRequest)
    (hd : api.authData now request = .ret (r, .ok (secret, data)))
    (hh : r.HttpRequest = some h) :
    api.auth lib now request = .ret (withHeaders lib api secret data r h, none) := by
  simp [Api.auth, hd, hh, withHeaders]

theorem authData_http (api : Api) (now : Int) (request r : Request)
    (x : Except Error (List UInt8 × GoString))
    (h : api.authData now request = .ret (r, x)) :
    r.HttpRequest = request.HttpRequest ∧ r.Path = request.Path := by
  rcases authData_cases api now request with ⟨_, e⟩ | ⟨_, _, _, _, e⟩ | ⟨_, _, _, e⟩
    | ⟨_, _, _, _, e⟩ | ⟨_, _, _, _, e⟩ | ⟨_, _, _, _, _, _, _, e⟩ <;>
  · rw [e] at h
    cases h <;> exact ⟨rfl, rfl⟩

/-! ## The two branches of `Call` -/

theorem NewRequest_ok (lib : Stdlib) (method urlStr : GoString) (h0 : HttpRequest)
    (h : NewRequest lib method urlStr = .ok h0) :
    ∃ u, lib.urlParse urlStr = .ok u
      ∧ h0 = { Method := method, URL := u, Header := [], Body := none, ContentLength := 0 } := by
  unfold NewRequest at h
  split at h
  · cases h
  · next u hu =>
    injection h with h
    exact ⟨u, hu, h.symm⟩

theorem callPrivate_of_error (lib : Stdlib) (api : Api) (now : Int) (request : Request)
    (url : URL) (e : Error)
    (h : NewRequest lib (lit "POST") (lib.urlString { url with Host := lit "mtgox.com" })
      = .error e) :
    api.callPrivate lib now request url = .ret (.error e) := by
  simp [Api.callPrivate, h]

theorem callPrivate_of_newRequest (lib : Stdlib) (api : Api) (now : Int) (request : Request)
    (url : URL) (h0 : HttpRequest)
    (h : NewRequest lib (lit "POST") (lib.urlString { url with Host := lit "mtgox.com" })
      = .ok h0) :
    api.callPrivate lib now request url =
      match api.authData now { request with HttpRequest := some h0 } with
      | .panic => .panic
      | .ret (_, .error e) => .ret (.error e)
      | .ret (r, .ok (secret, data)) =>
        .ret (.ok (signedRequest lib api secret data r.Parameters h0)) := by
  cases hA : api.authData now { request with HttpRequest := some h0 } with
  | panic => simp [Api.callPrivate, h, Api.auth, hA]
  | ret p =>
    obtain ⟨r, x⟩ := p
    have hr := (authData_http api now _ r x hA).1
    cases x with
    | error e => simp [Api.callPrivate, h, Api.auth, hA]
    | ok sd =>
      obtain ⟨secret, data⟩ := sd
      simp at hr
      simp [Api.callPrivate, h, Api.auth, hA, hr, signedRequest]

theorem buildRequest_of_url (lib : Stdlib) (api : Api) (now : Int) (path : GoString)
    (params : List (GoString × Value)) (url : URL)
    (h : lib.urlParse (lit "https://data.mtgox.com/api/" ++ TrimLeft path) = .ok url) :
    api.buildRequest lib now path params =
      if api.doAuth then
        api.callPrivate lib now ⟨none, TrimLeft path, parseParameters lib params⟩ url
      else Api.callPublic lib (parseParameters lib params) url := by
  simp [Api.buildRequest, h]

theorem buildRequest_of_url_error (lib : Stdlib) (api : Api) (now : Int) (path : GoString)
    (params : List (GoString × Value)) (e : Error)
    (h : lib.urlParse (lit "https://data.mtgox.com/api/" ++ TrimLeft path) = .error e) :
    api.buildRequest lib now path params = .ret (.error e) := by
  simp [Api.buildRequest, h]

theorem doAuth_iff (api : Api) : api.doAuth = true ↔ resolvesPrivate api := by
  unfold Api.doAuth resolvesPrivate
  simp [and_assoc]

/-- A request built by the signing branch is the signed request of a run of
`auth` that got as far as signing. -/
theorem callPrivate_ok (lib : Stdlib) (api : Api) (now : Int) (request : Request)
    (url : URL) (h : HttpRequest)
    (hc : api.callPrivate lib now request url = .ret (.ok h)) :
    ∃ h0 r secret data,
      NewRequest lib (lit "POST") (lib.urlString { url with Host := lit "mtgox.com" }) = .ok h0
      ∧ api.authData now { request with HttpRequest := some h0 } = .ret (r, .ok (secret, data))
      ∧ h = signedRequest lib api secret data r.Parameters h0 := by
  cases hn : NewRequest lib (lit "POST") (lib.urlString { url with Host := lit "mtgox.com" }) with
  | error e =>
    rw [callPrivate_of_error lib api now request url e hn] at hc
    cases hc
  | ok h0 =>
    rw [callPrivate_of_newRequest lib api now request url h0 hn] at hc
    cases hA : api.authData now { request with HttpRequest := some h0 } with
    | panic =>
      rw [hA] at hc
      cases hc
    | ret p =>
      obtain ⟨r, x⟩ := p
      cases x with
      | error e =>
        rw [hA] at hc
        cases hc
      | ok sd =>
        obtain ⟨secret, data⟩ := sd
        rw [hA] at hc
        injection hc with hc
        injection hc with hc
        exact ⟨h0, r, secret, data, rfl, hA, hc.symm⟩

theorem callPublic_ok (lib : Stdlib) (parameters : Values) (url : URL) (h : HttpRequest)
    (hc : Api.callPublic lib parameters url = .ret (.ok h)) :
    ∃ u, h = { Method := lit "GET", URL := u, Header := [], Body := none, ContentLength := 0 } := by
  cases hn : NewRequest lib (lit "GET") (lib.urlString
      (if parameters.length > 0 then { url with RawQuery := parameters.Encode } else url)) with
  | error e =>
    simp [Api.callPublic, hn] at hc
  | ok h1 =>
    obtain ⟨u, _, hu⟩ := NewRequest_ok lib _ _ h1 hn
    simp [Api.callPublic, hn] at hc
    subst hc
    exact ⟨u, hu⟩

theorem authData_ok (api : Api) (now : Int) (request : Request) (v : Nat)
    (secret : List UInt8)
    (hd : versionDigit request.Path = some v) (hv : v ≤ 2)
    (hlen : v = 2 → 2 ≤ request.Path.length)
    (hs : DecodeString api.ApiSecret = .ok secret) :
    ∃ data, encodedData v (withTonce now request) = .ret data
      ∧ api.authData now request = .ret (withTonce now request, .ok (secret, data)) := by
  have key := authData_version api now request v hd hv
  rw [hs] at key
  rcases encodedData_cases v (withTonce now request) with ⟨h2, hl, _⟩ | ⟨_, _, he⟩ | ⟨_, he⟩
  · have := hlen h2
    simp [withTonce] at hl
    omega
  · exact ⟨_, he, by rw [key]; simp only [he]⟩
  · exact ⟨_, he, by rw [key]; simp only [he]⟩

theorem versionDigit_low (c : UInt8) (rest : GoString) (hc : c = 48 ∨ c = 49 ∨ c = 50) :
    ∃ v, versionDigit (c :: rest) = some v ∧ v ≤ 2 ∧ (v = 2 ↔ c = 50) := by
  rcases hc with h | h | h <;> subst h
  · exact ⟨0, rfl, by decide, by decide⟩
  · exact ⟨1, rfl, by decide, by decide⟩
  · exact ⟨2, rfl, by decide, by decide⟩

/-! ## C1: which branch `Call` takes -/

/-- C1: once the URL is parsed, `Call` takes its signing branch (a POST) exactly
when the mode is `Private`, or the mode is `Auto` and both `ApiKey` and
`ApiSecret` are non-empty, and its unsigned branch (a GET) in every other case;
mode `Public` is unsigned even with credentials, and mode `Auto` with an empty
key or an empty secret is unsigned. -/
theorem call_branch_resolution (lib : Stdlib) (api : Api) (now : Int) (path : GoString)
    (params : List (GoString × Value)) (url : URL)
    (hurl : lib.urlParse (lit "https://data.mtgox.com/api/" ++ TrimLeft path) = .ok url) :
    (api.doAuth = true
      ↔ (api.Auth = .Private ∨ (api.Auth = .Auto ∧ api.ApiKey ≠ [] ∧ api.ApiSecret ≠ [])))
    ∧ ((api.Auth = .Private ∨ (api.Auth = .Auto ∧ api.ApiKey ≠ [] ∧ api.ApiSecret ≠ [])) →
        api.buildRequest lib now path params
          = api.callPrivate lib now ⟨none, TrimLeft path, parseParameters lib params⟩ url)
    ∧ (¬ (api.Auth = .Private ∨ (api.Auth = .Auto ∧ api.ApiKey ≠ [] ∧ api.ApiSecret ≠ [])) →
        api.buildRequest lib now path params
          = Api.callPublic lib (parseParameters lib params) url)
    ∧ (∀ h, api.buildRequest lib now path params = .ret (.ok h) →
        (h.Method = lit "POST"
          ↔ (api.Auth = .Private ∨ (api.Auth = .Auto ∧ api.ApiKey ≠ [] ∧ api.ApiSecret ≠ [])))
        ∧ (h.Method = lit "GET"
          ↔ ¬ (api.Auth = .Private ∨ (api.Auth = .Auto ∧ api.ApiKey ≠ [] ∧ api.ApiSecret ≠ []))))
    ∧ (api.Auth = .Public →
        api.buildRequest lib now path params
          = Api.callPublic lib (parseParameters lib params) url)
    ∧ (api.Auth = .Auto → (api.ApiKey = [] ∨ api.ApiSecret = []) →
        api.buildRequest lib now path params
          = Api.callPublic lib (parseParameters lib params) url) := by
  have hb := buildRequest_of_url lib api now path params url hurl
  have hiff := doAuth_iff api
  unfold resolvesPrivate at hiff
  have hpriv : (api.Auth = .Private ∨ (api.Auth = .Auto ∧ api.ApiKey ≠ [] ∧ api.ApiSecret ≠ [])) →
      api.buildRequest lib now path params
        = api.callPrivate lib now ⟨none, TrimLeft path, parseParameters lib params⟩ url := by
    intro hc
    rw [hb, if_pos (hiff.mpr hc)]
  have hpub : ¬ (api.Auth = .Private ∨ (api.Auth = .Auto ∧ api.ApiKey ≠ [] ∧ api.ApiSecret ≠ [])) →
      api.buildRequest lib now path params
        = Api.callPublic lib (parseParameters lib params) url := by
    intro hc
    have : ¬ (api.doAuth = true) := fun h => hc (hiff.mp h)
    rw [hb, if_neg this]
  have hPG : lit "POST" ≠ lit "GET" := by decide
  refine ⟨hiff, hpriv, hpub, ?_, ?_, ?_⟩
  · intro h hh
    by_cases hc : (api.Auth = .Private ∨ (api.Auth = .Auto ∧ api.ApiKey ≠ [] ∧ api.ApiSecret ≠ []))
    · rw [hpriv hc] at hh
      obtain ⟨h0, r, secret, data, hn, _, rfl⟩ := callPrivate_ok lib api now _ url h hh
      obtain ⟨u, _, rfl⟩ := NewRequest_ok lib _ _ h0 hn
      exact ⟨⟨fun _ => hc, fun _ => rfl⟩, ⟨fun hg => absurd hg hPG, fun hn => absurd hc hn⟩⟩
    · rw [hpub hc] at hh
      obtain ⟨u, rfl⟩ := callPublic_ok lib _ url h hh
      exact ⟨⟨fun hg => absurd hg.symm hPG, fun hn => absurd hn hc⟩, ⟨fun _ => hc, fun _ => rfl⟩⟩
  · intro hm
    apply hpub
    simp [hm]
  · intro hm he
    apply hpub
    rcases he with he | he <;> simp [hm, he]

/-- C1 at a concrete call: in mode `Auto` with a key and a secret,
`Call("2/money/info", nil)` takes the signing branch. -/
theorem call_branch_resolution_witness :
    sampleApi.buildRequest sampleLib 1000000000 (lit "2/money/info") []
      = sampleApi.callPrivate sampleLib 1000000000
          ⟨none, TrimLeft (lit "2/money/info"), parseParameters sampleLib []⟩
          (sampleUrl "data.mtgox.com" "2/money/info") :=
  (call_branch_resolution sampleLib sampleApi 1000000000 (lit "2/money/info") []
    (sampleUrl "data.mtgox.com" "2/money/info") (by decide)).2.1 (by decide)

/-! ## C2: mode `Private` without credentials -/

/-- C2, as the claim states it, fails: in mode `Private` with an empty key and
an empty secret, `Call("1/x", nil)` does not stop at the decoding of the secret.
The empty secret decodes to the empty key, and one signed POST request, with an
empty `Rest-Key`, is handed to the transport. -/
theorem private_without_credentials_is_sent :
    (NewApi [] []).Private.doAuth = true
    ∧ DecodeString (NewApi [] []).Private.ApiSecret = .ok []
    ∧ (NewApi [] []).Private.auth sampleLib 1000000000 ⟨some (samplePost "1/x"), lit "1/x", []⟩
        = .ret (withHeaders sampleLib (NewApi [] []).Private [] (lit "tonce=1000000")
            ⟨some (samplePost "1/x"), lit "1/x", [(lit "tonce", [lit "1000000"])]⟩
            (samplePost "1/x"), none)
    ∧ (NewApi [] []).Private.Call sampleLib 1000000000 (lit "1/x") []
        = ⟨[signedRequest sampleLib (NewApi [] []).Private [] (lit "tonce=1000000")
              [(lit "tonce", [lit "1000000"])] (samplePost "1/x")],
            .ret (lit "{}", none)⟩ := by
  decide

/-- C2, amended: for every path whose version digit is 0 or 1, or is 2 with at
least one more byte, a call in mode `Private` with an empty key and an empty
secret resolves to the signing branch and does not fail at the decoding of the
secret: the empty secret decodes to the empty key, `auth` returns no error and
attaches an empty `Rest-Key` and the `Rest-Sign` computed under the empty key,
and `Call` builds the signed request. -/
theorem private_without_credentials (lib : Stdlib) (api : Api) (now : Int)
    (path : GoString) (params : List (GoString × Value)) (url : URL) (h0 : HttpRequest)
    (v : Nat)
    (hmode : api.Auth = .Private) (hkey : api.ApiKey = []) (hsecret : api.ApiSecret = [])
    (hv : versionDigit (TrimLeft path) = some v) (hv2 : v ≤ 2)
    (hlen : v = 2 → 2 ≤ (TrimLeft path).length)
    (hurl : lib.urlParse (lit "https://data.mtgox.com/api/" ++ TrimLeft path) = .ok url)
    (hnew : NewRequest lib (lit "POST") (lib.urlString { url with Host := lit "mtgox.com" })
      = .ok h0) :
    api.doAuth = true
    ∧ DecodeString api.ApiSecret = .ok []
    ∧ ∃ data,
        encodedData v (withTonce now ⟨some h0, TrimLeft path, parseParameters lib params⟩)
          = .ret data
        ∧ api.auth lib now ⟨some h0, TrimLeft path, parseParameters lib params⟩
          = .ret (withHeaders lib api [] data
              (withTonce now ⟨some h0, TrimLeft path, parseParameters lib params⟩) h0, none)
        ∧ (withHeaders lib api [] data
              (withTonce now ⟨some h0, TrimLeft path, parseParameters lib params⟩) h0).HttpRequest
          = some { h0 with
              Header := (h0.Header.Add (lit "Rest-Key") []).Add (lit "Rest-Sign")
                (EncodeToString (lib.hmacSha512 [] data)) }
        ∧ api.buildRequest lib now path params
          = .ret (.ok (signedRequest lib api [] data
              (withTonce now ⟨some h0, TrimLeft path, parseParameters lib params⟩).Parameters
              h0)) := by
  have hdo : api.doAuth = true := (doAuth_iff api).mpr (Or.inl hmode)
  have hdec : DecodeString api.ApiSecret = .ok [] := by
    rw [hsecret]
    rfl
  obtain ⟨data, he, hA⟩ := authData_ok api now ⟨some h0, TrimLeft path, parseParameters lib params⟩
    v [] hv hv2 hlen hdec
  refine ⟨hdo, hdec, data, he, ?_, ?_, ?_⟩
  · exact auth_of_data lib api now _ _ [] data h0 hA rfl
  · simp [withHeaders, hkey]
  · rw [buildRequest_of_url lib api now path params url hurl, if_pos hdo,
      callPrivate_of_newRequest lib api now _ url h0 hnew]
    simp only [hA]

/-- C2, amended, at a concrete call: mode `Private`, no credentials, path
`2/money/info`. -/
theorem private_without_credentials_witness :
    (NewApi [] []).Private.buildRequest sampleLib 1000000000 (lit "2/money/info") []
      = .ret (.ok (signedRequest sampleLib (NewApi [] []).Private []
          (lit "money/info\x00tonce=1000000") [(lit "tonce", [lit "1000000"])]
          (samplePost "2/money/info"))) := by
  obtain ⟨data, he, _, _, hb⟩ := (private_without_credentials sampleLib (NewApi [] []).Private
    1000000000 (lit "2/money/info") [] (sampleUrl "data.mtgox.com" "2/money/info")
    (samplePost "2/money/info") 2 rfl rfl rfl (by decide) (by decide) (by decide) (by decide)
    (by decide)).2.2
  have hd : data = lit "money/info\x00tonce=1000000" := by
    have : encodedData ((2 : Nat) : Int) (withTonce 1000000000
        ⟨some (samplePost "2/money/info"), TrimLeft (lit "2/money/info"),
          parseParameters sampleLib []⟩) = .ret (lit "money/info\x00tonce=1000000") := by
      decide
    rw [this] at he
    injection he with he
    exact he.symm
  rw [hb, hd]
  rfl

/-! ## C3: the version step of `auth` -/

/-- C3, as the claim states it, fails: on the path `x/money/info`, whose first
byte is not a digit, `auth` returns the syntax error of `strconv.ParseInt`, which
is not an `InvalidVersion`. -/
theorem auth_nondigit_is_not_InvalidVersion :
    sampleApi.auth sampleLib 1000000000
        ⟨some (samplePost "x/money/info"), lit "x/money/info", []⟩
      = .ret (⟨some (samplePost "x/money/info"), lit "x/money/info", []⟩,
          some (.NumError (lit "ParseInt") (lit "x") .ErrSyntax))
    ∧ ∀ v : Int, Error.NumError (lit "ParseInt") (lit "x") .ErrSyntax ≠ Error.InvalidVersion v := by
  refine ⟨by decide, ?_⟩
  intro v h
  cases h

/-- C3, amended: for every non-empty path, `auth` fails with `InvalidVersion(v)`
when the first byte is a digit `v` from 3 to 9; it fails with the syntax error
of `strconv.ParseInt` on that byte, and leaves the request as it was, when the
first byte is not an ASCII digit; and it does not fail at the version step when
the first byte is `0`, `1` or `2` (the only error it can then return is the
base64 error of an undecodable secret). -/
theorem auth_version_step (lib : Stdlib) (api : Api) (now : Int) (request : Request)
    (c : UInt8) (rest : GoString) (hp : request.Path = c :: rest) :
    (∀ v, versionDigit request.Path = some v → 2 < v →
        v ≤ 9 ∧ api.auth lib now request = .ret (request, some (.InvalidVersion v)))
    ∧ (versionDigit request.Path = none →
        api.auth lib now request
          = .ret (request, some (.NumError (lit "ParseInt") [c] .ErrSyntax)))
    ∧ ((c = 48 ∨ c = 49 ∨ c = 50) →
        ∀ r e, api.auth lib now request = .ret (r, some e) →
          e = .CorruptInputError ∧ DecodeString api.ApiSecret = .error .CorruptInputError) := by
  refine ⟨?_, ?_, ?_⟩
  · intro v hd hv
    refine ⟨?_, auth_of_error lib api now request request _
      (authData_bad_version api now request v hd hv)⟩
    rw [hp] at hd
    by_cases hc : 48 ≤ c ∧ c ≤ 57
    · have h9 := digit_toNat c hc
      simp [versionDigit, hc] at hd
      omega
    · simp [versionDigit, hc] at hd
  · intro hd
    exact auth_of_error lib api now request request _
      (authData_no_digit api now request c rest hp hd)
  · intro hc r e ha
    obtain ⟨v, hv, hv2, _⟩ := versionDigit_low c rest hc
    rw [← hp] at hv
    rcases authData_cases api now request with ⟨_, e1⟩ | ⟨_, _, _, hn, _⟩ | ⟨w, hw, hw2, _⟩
      | ⟨_, _, _, hs, e1⟩ | ⟨_, _, _, _, e1⟩ | ⟨_, secret, data, _, _, _, _, e1⟩
    · rw [auth_of_panic lib api now request e1] at ha
      cases ha
    · rw [hn] at hv
      cases hv
    · rw [hw] at hv
      injection hv with hv
      omega
    · rw [auth_of_error lib api now request _ _ e1] at ha
      cases ha
      exact ⟨rfl, hs⟩
    · rw [auth_of_panic lib api now request e1] at ha
      cases ha
    · cases hh : request.HttpRequest with
      | none =>
        simp [Api.auth, e1, withTonce, hh] at ha
      | some h =>
        rw [auth_of_data lib api now request _ secret data h e1 (by simpa [withTonce] using hh)] at ha
        cases ha

/-- C3, amended, at a concrete path: on `7/money/info` the error is
`InvalidVersion(7)`. -/
theorem auth_version_step_witness :
    (7 : Nat) ≤ 9
    ∧ sampleApi.auth sampleLib 1000000000
        ⟨some (samplePost "7/money/info"), lit "7/money/info", []⟩
      = .ret (⟨some (samplePost "7/money/info"), lit "7/money/info", []⟩,
          some (.InvalidVersion 7)) :=
  (auth_version_step sampleLib sampleApi 1000000000
    ⟨some (samplePost "7/money/info"), lit "7/money/info", []⟩ 55 (lit "/money/info") rfl).1
    7 (by decide) (by decide)

/-! ## `url.Values` -/

theorem lookup_Add_self (v : Values) (key value : GoString) :
    (v.Add key value).lookup key = v.lookup key ++ [value] := by
  induction v with
  | nil => simp [Values.Add, Values.lookup]
  | cons e rest ih =>
    obtain ⟨k, vs⟩ := e
    by_cases hk : k = key
    · simp [Values.Add, Values.lookup, hk]
    · simp [Values.Add, Values.lookup, hk, ih]

theorem lookup_Add_other (v : Values) (key value other : GoString) (h : other ≠ key) :
    (v.Add key value).lookup other = v.lookup other := by
  induction v with
  | nil =>
    have : ¬ key = other := fun e => h e.symm
    simp [Values.Add, Values.lookup, this]
  | cons e rest ih =>
    obtain ⟨k, vs⟩ := e
    by_cases hk : k = key
    · have : ¬ key = other := fun e => h e.symm
      simp [Values.Add, Values.lookup, hk, this]
    · by_cases ho : k = other
      · subst ho
        simp [Values.Add, Values.lookup, h]
      · simp [Values.Add, Values.lookup, hk, ho, ih]

/-! ## C4: `auth` on the one-byte path `2` -/

/-- C4 fails on the code at the one-byte path `2`: with a valid base64 secret
the version step passes, the nonce is added, the secret is decoded, and
`request.Path[2:]` is then out of range, so that `auth` panics instead of
returning; on the one-byte paths `0` and `1` it returns without an error. -/
theorem auth_panics_on_one_byte_path_2 :
    versionDigit (lit "2") = some 2
    ∧ DecodeString sampleApi.ApiSecret = .ok (lit "testsecret")
    ∧ sampleApi.auth sampleLib 1000000000 ⟨some (samplePost "2"), lit "2", []⟩ = .panic
    ∧ sampleApi.auth sampleLib 1000000000 ⟨some (samplePost "1"), lit "1", []⟩
        = .ret (withHeaders sampleLib sampleApi (lit "testsecret") (lit "tonce=1000000")
            ⟨some (samplePost "1"), lit "1", [(lit "tonce", [lit "1000000"])]⟩
            (samplePost "1"), none) := by
  decide

/-! ## C5: the data that is signed -/

/-- C5: when the secret decodes, the data `auth` signs is, for a path `2/rest`,
`rest` followed by one NUL byte and the encoded parameters with the nonce
added, and for a path of version 0 or 1 the encoded parameters with the nonce
added alone; the `Rest-Sign` header is the base64 text of the MAC of that data. -/
theorem signing_payload (lib : Stdlib) (api : Api) (now : Int) (request : Request)
    (h : HttpRequest) (secret : List UInt8)
    (hs : DecodeString api.ApiSecret = .ok secret)
    (hh : request.HttpRequest = some h) :
    (∀ rest, request.Path = 50 :: 47 :: rest →
        api.signedData now request
          = some (rest ++ [0] ++ (withTonce now request).Parameters.Encode)
        ∧ api.auth lib now request
          = .ret (withHeaders lib api secret
              (rest ++ [0] ++ (withTonce now request).Parameters.Encode)
              (withTonce now request) h, none))
    ∧ (∀ c rest, request.Path = c :: rest → (c = 48 ∨ c = 49) →
        api.signedData now request = some (withTonce now request).Parameters.Encode
        ∧ api.auth lib now request
          = .ret (withHeaders lib api secret (withTonce now request).Parameters.Encode
              (withTonce now request) h, none))
    ∧ (withTonce now request).Parameters.lookup (lit "tonce")
        = request.Parameters.lookup (lit "tonce") ++ [FormatInt (Int.tdiv now 1000)] := by
  refine ⟨?_, ?_, ?_⟩
  · intro rest hp
    have hd : versionDigit request.Path = some 2 := by rw [hp]; rfl
    have key := authData_version api now request 2 hd (le_refl 2)
    have he : encodedData ((2 : Nat) : Int) (withTonce now request)
        = .ret (rest ++ [0] ++ (withTonce now request).Parameters.Encode) := by
      simp [encodedData, withTonce, hp]
    rw [hs] at key
    simp only [he] at key
    exact ⟨by simp [Api.signedData, key],
      auth_of_data lib api now request _ secret _ h key (by simpa [withTonce] using hh)⟩
  · intro c rest hp hc
    obtain ⟨v, hv, hv2, hv3⟩ := versionDigit_low c rest (by tauto)
    rw [← hp] at hv
    have hne : v ≠ 2 := by
      intro h2
      have := hv3.mp h2
      rcases hc with h' | h' <;> rw [h'] at this <;> exact absurd this (by decide)
    have key := authData_version api now request v hv hv2
    have he : encodedData (v : Int) (withTonce now request)
        = .ret (withTonce now request).Parameters.Encode := by
      rcases encodedData_cases v (withTonce now request) with ⟨h2, _⟩ | ⟨h2, _⟩ | ⟨_, he⟩
      · exact absurd h2 hne
      · exact absurd h2 hne
      · exact he
    rw [hs] at key
    simp only [he] at key
    exact ⟨by simp [Api.signedData, key],
      auth_of_data lib api now request _ secret _ h key (by simpa [withTonce] using hh)⟩
  · simp [withTonce, lookup_Add_self]

/-- C5 at the path `2/BTCUSD/money/ticker`, with no other parameter and the
clock at 1000000 microseconds: the data to sign is
`BTCUSD/money/ticker\x00tonce=1000000`. -/
theorem signing_payload_witness :
    sampleApi.signedData 1000000000
        ⟨some (samplePost "2/BTCUSD/money/ticker"), lit "2/BTCUSD/money/ticker", []⟩
      = some (lit "BTCUSD/money/ticker\x00tonce=1000000") :=
  ((signing_payload sampleLib sampleApi 1000000000
      ⟨some (samplePost "2/BTCUSD/money/ticker"), lit "2/BTCUSD/money/ticker", []⟩
      (samplePost "2/BTCUSD/money/ticker") (lit "testsecret") (by decide) rfl).1
    (lit "BTCUSD/money/ticker") (by decide)).1.trans (by decide)

/-! ## C6 and C7: the path in the signed data -/

/-- C6, as the claim states it, fails: the paths `2/a` and `2Xa` are distinct,
both have version digit 2, and with the same parameters, clock and secret
`auth` signs the same data for both, because `request.Path[2:]` drops the
second byte whatever it is. -/
theorem distinct_v2_paths_same_payload :
    lit "2/a" ≠ lit "2Xa"
    ∧ versionDigit (lit "2/a") = some 2
    ∧ versionDigit (lit "2Xa") = some 2
    ∧ sampleApi.signedData 1000000000 ⟨some (samplePost "2/a"), lit "2/a", []⟩
        = some (lit "a\x00tonce=1000000")
    ∧ sampleApi.signedData 1000000000 ⟨some (samplePost "2/a"), lit "2Xa", []⟩
        = some (lit "a\x00tonce=1000000") := by
  decide

/-- C6, amended: for every two distinct paths that both have version digit 2
and the same second byte (so for every two distinct paths that begin with
`2/`), with the same parameters, clock and secret, the data that `auth` signs
for the one differs from the data it signs for the other. -/
theorem v2_payload_depends_on_path (api : Api) (now : Int) (p q p' q' : GoString)
    (s : UInt8) (ps : Values) (hp' hq' : Option HttpRequest) (secret : List UInt8)
    (hs : DecodeString api.ApiSecret = .ok secret)
    (hp : p = 50 :: s :: p') (hq : q = 50 :: s :: q') (hne : p ≠ q) :
    ∃ d1 d2, api.signedData now ⟨hp', p, ps⟩ = some d1
      ∧ api.signedData now ⟨hq', q, ps⟩ = some d2
      ∧ d1 ≠ d2 := by
  have hd : ∀ (hh : Option HttpRequest) (r : GoString),
      api.signedData now ⟨hh, 50 :: s :: r, ps⟩
        = some (r ++ [0] ++ (withTonce now ⟨hh, 50 :: s :: r, ps⟩).Parameters.Encode) := by
    intro hh r
    have hv : versionDigit (Request.mk hh (50 :: s :: r) ps).Path = some 2 := rfl
    have key := authData_version api now ⟨hh, 50 :: s :: r, ps⟩ 2 hv (le_refl 2)
    have he : encodedData ((2 : Nat) : Int) (withTonce now ⟨hh, 50 :: s :: r, ps⟩)
        = .ret (r ++ [0] ++ (withTonce now ⟨hh, 50 :: s :: r, ps⟩).Parameters.Encode) := by
      simp [encodedData, withTonce]
    rw [hs] at key
    simp only [he] at key
    simp [Api.signedData, key]
  subst hp
  subst hq
  refine ⟨_, _, hd hp' p', hd hq' q', ?_⟩
  intro heq
  apply hne
  have hE : (withTonce now ⟨hp', 50 :: s :: p', ps⟩).Parameters.Encode
      = (withTonce now ⟨hq', 50 :: s :: q', ps⟩).Parameters.Encode := rfl
  rw [hE] at heq
  have := List.append_cancel_right heq
  have := List.append_cancel_right this
  rw [this]

/-- C6, amended, at the paths `2/BTCUSD/money/ticker` and `2/money/info`. -/
theorem v2_payload_depends_on_path_witness :
    ∃ d1 d2,
      sampleApi.signedData 1000000000 ⟨none, lit "2/BTCUSD/money/ticker", []⟩ = some d1
      ∧ sampleApi.signedData 1000000000 ⟨none, lit "2/money/info", []⟩ = some d2
      ∧ d1 ≠ d2 :=
  v2_payload_depends_on_path sampleApi 1000000000 (lit "2/BTCUSD/money/ticker")
    (lit "2/money/info") (lit "BTCUSD/money/ticker") (lit "money/info") 47 [] none none
    (lit "testsecret") (by decide) (by decide) (by decide) (by decide)

/-- C7: for every two paths whose version digit is 0 or 1, with the same
parameters, clock, secret and request, `auth` signs the same data, and its two
runs end alike: the same error, or the same parameters and the same `Rest-Key`
and `Rest-Sign` headers; only the path of the returned request differs. -/
theorem v01_signature_independent_of_path (lib : Stdlib) (api : Api) (now : Int)
    (p q : GoString) (ps : Values) (hh : Option HttpRequest) (vp vq : Nat)
    (hp : versionDigit p = some vp) (hq : versionDigit q = some vq)
    (hvp : vp ≤ 1) (hvq : vq ≤ 1) :
    api.signedData now ⟨hh, p, ps⟩ = api.signedData now ⟨hh, q, ps⟩
    ∧ (∀ r e, api.auth lib now ⟨hh, p, ps⟩ = .ret (r, e) →
        api.auth lib now ⟨hh, q, ps⟩ = .ret ({ r with Path := q }, e))
    ∧ (api.auth lib now ⟨hh, p, ps⟩ = .panic → api.auth lib now ⟨hh, q, ps⟩ = .panic)
    ∧ (∀ secret h, DecodeString api.ApiSecret = .ok secret → hh = some h →
        api.signedData now ⟨hh, p, ps⟩
          = some (ps.Add (lit "tonce") (FormatInt (Int.tdiv now 1000))).Encode
        ∧ api.auth lib now ⟨hh, p, ps⟩
          = .ret (withHeaders lib api secret
              (ps.Add (lit "tonce") (FormatInt (Int.tdiv now 1000))).Encode
              (withTonce now ⟨hh, p, ps⟩) h, none)
        ∧ api.auth lib now ⟨hh, q, ps⟩
          = .ret (withHeaders lib api secret
              (ps.Add (lit "tonce") (FormatInt (Int.tdiv now 1000))).Encode
              (withTonce now ⟨hh, q, ps⟩) h, none)) := by
  have hd : ∀ (r : GoString) (v : Nat), versionDigit r = some v → v ≤ 1 →
      api.authData now ⟨hh, r, ps⟩ =
        match DecodeString api.ApiSecret with
        | .error err => .ret (withTonce now ⟨hh, r, ps⟩, .error err)
        | .ok secret =>
          .ret (withTonce now ⟨hh, r, ps⟩,
            .ok (secret, (ps.Add (lit "tonce") (FormatInt (Int.tdiv now 1000))).Encode)) := by
    intro r v hv hv1
    have key := authData_version api now ⟨hh, r, ps⟩ v hv (by omega)
    have he : encodedData (v : Int) (withTonce now ⟨hh, r, ps⟩)
        = .ret (ps.Add (lit "tonce") (FormatInt (Int.tdiv now 1000))).Encode := by
      rcases encodedData_cases v (withTonce now ⟨hh, r, ps⟩) with ⟨h2, _⟩ | ⟨h2, _⟩ | ⟨_, he⟩
      · omega
      · omega
      · exact he
    rw [key]
    cases DecodeString api.ApiSecret with
    | error err => rfl
    | ok secret => simp only [he]
  have hP := hd p vp hp hvp
  have hQ := hd q vq hq hvq
  cases hs : DecodeString api.ApiSecret with
  | error err =>
    rw [hs] at hP hQ
    refine ⟨by simp [Api.signedData, hP, hQ], ?_, ?_, ?_⟩
    · intro r e ha
      rw [auth_of_error lib api now _ _ err hP] at ha
      cases ha
      exact auth_of_error lib api now _ _ err hQ
    · intro ha
      rw [auth_of_error lib api now _ _ err hP] at ha
      cases ha
    · intro secret h hs'
      cases hs'
  | ok secret =>
    rw [hs] at hP hQ
    refine ⟨by simp [Api.signedData, hP, hQ], ?_, ?_, ?_⟩
    · intro r e ha
      cases hh with
      | none => simp [Api.auth, hP, withTonce] at ha
      | some h =>
        rw [auth_of_data lib api now _ _ secret _ h hP rfl] at ha
        cases ha
        exact auth_of_data lib api now _ _ secret _ h hQ rfl
    · intro _
      cases hh with
      | none => simp [Api.auth, hQ, withTonce]
      | some h =>
        rename_i ha
        rw [auth_of_data lib api now _ _ secret _ h hP rfl] at ha
        cases ha
    · intro secret' h hs' hh'
      cases hs'
      subst hh'
      exact ⟨by simp [Api.signedData, hP], auth_of_data lib api now _ _ _ _ h hP rfl,
        auth_of_data lib api now _ _ _ _ h hQ rfl⟩

/-- C7 at the paths `1/generic/info` and `0/data/ticker`: the same data is
signed. -/
theorem v01_signature_independent_of_path_witness :
    sampleApi.signedData 1000000000 ⟨none, lit "1/generic/info", []⟩
      = sampleApi.signedData 1000000000 ⟨none, lit "0/data/ticker", []⟩ :=
  (v01_signature_independent_of_path sampleLib sampleApi 1000000000 (lit "1/generic/info")
    (lit "0/data/ticker") [] none 1 0 (by decide) (by decide) (by decide) (by decide)).1

/-! ## C8: the `Rest-Key` and `Rest-Sign` headers -/

theorem authData_secret (api : Api) (now : Int) (request r : Request) (secret : List UInt8)
    (data : GoString) (h : api.authData now request = .ret (r, .ok (secret, data))) :
    DecodeString api.ApiSecret = .ok secret ∧ r = withTonce now request := by
  rcases authData_cases api now request with ⟨_, e⟩ | ⟨_, _, _, _, e⟩ | ⟨_, _, _, e⟩
    | ⟨_, _, _, _, e⟩ | ⟨_, _, _, _, e⟩ | ⟨_, _, _, _, _, hs, _, e⟩ <;> rw [e] at h <;> cases h
  exact ⟨hs, rfl⟩

theorem Call_sent (lib : Stdlib) (api : Api) (now : Int) (path : GoString)
    (params : List (GoString × Value)) (h : HttpRequest)
    (hm : h ∈ (api.Call lib now path params).sent) :
    api.buildRequest lib now path params = .ret (.ok h) := by
  unfold Api.Call at hm
  cases hb : api.buildRequest lib now path params with
  | panic => simp [hb] at hm
  | ret x =>
    cases x with
    | error e => simp [hb] at hm
    | ok h1 =>
      simp only [hb] at hm
      split at hm
      · simp at hm
      · split at hm <;> simp at hm <;> rw [hm]

/-- C8: a request that `Call` builds in its unsigned branch has no header at
all, so neither `Rest-Key` nor `Rest-Sign`; a request that it builds in its
signing branch has exactly one `Rest-Key`, the raw `ApiKey`, and exactly one
`Rest-Sign`, the base64 text of the MAC, under the decoded secret, of the data
that `auth` signed. A request handed to the transport is the request built. -/
theorem rest_headers (lib : Stdlib) (api : Api) (now : Int) (path : GoString)
    (params : List (GoString × Value)) (h : HttpRequest)
    (hb : api.buildRequest lib now path params = .ret (.ok h)) :
    (api.doAuth = false →
        h.Header = []
        ∧ h.Header.lookup (lit "Rest-Key") = []
        ∧ h.Header.lookup (lit "Rest-Sign") = [])
    ∧ (api.doAuth = true →
        ∃ h0 secret data,
          DecodeString api.ApiSecret = .ok secret
          ∧ api.signedData now ⟨some h0, TrimLeft path, parseParameters lib params⟩ = some data
          ∧ h.Header.lookup (lit "Rest-Key") = [api.ApiKey]
          ∧ h.Header.lookup (lit "Rest-Sign") = [EncodeToString (lib.hmacSha512 secret data)])
    ∧ (∀ sent, sent ∈ (api.Call lib now path params).sent → sent = h) := by
  refine ⟨?_, ?_, ?_⟩
  · intro hdo
    have hb' := hb
    unfold Api.buildRequest at hb'
    cases hu : lib.urlParse (lit "https://data.mtgox.com/api/" ++ TrimLeft path) with
    | error e => simp [hu] at hb'
    | ok url =>
      simp [hu, hdo] at hb'
      obtain ⟨u, rfl⟩ := callPublic_ok lib _ url h hb'
      exact ⟨rfl, rfl, rfl⟩
  · intro hdo
    have hb' := hb
    unfold Api.buildRequest at hb'
    cases hu : lib.urlParse (lit "https://data.mtgox.com/api/" ++ TrimLeft path) with
    | error e => simp [hu] at hb'
    | ok url =>
      simp [hu, hdo] at hb'
      obtain ⟨h0, r, secret, data, hn, hA, rfl⟩ := callPrivate_ok lib api now _ url h hb'
      obtain ⟨u, _, rfl⟩ := NewRequest_ok lib _ _ h0 hn
      refine ⟨{ Method := lit "POST", URL := u, Header := [], Body := none, ContentLength := 0 },
        secret, data, (authData_secret api now _ r secret data hA).1, ?_, ?_, ?_⟩
      · simp [Api.signedData, hA]
      · have h1 : lit "Rest-Key" ≠ lit "Rest-Sign" := by decide
        have h2 : lit "Rest-Key" ≠ lit "Content-Type" := by decide
        simp only [signedRequest]
        rw [lookup_Add_other _ _ _ _ h2, lookup_Add_other _ _ _ _ h1, lookup_Add_self]
        rfl
      · have h2 : lit "Rest-Sign" ≠ lit "Content-Type" := by decide
        simp only [signedRequest]
        rw [lookup_Add_other _ _ _ _ h2, lookup_Add_self]
        have h1 : lit "Rest-Sign" ≠ lit "Rest-Key" := by decide
        rw [lookup_Add_other _ _ _ _ h1]
        rfl
  · intro sent hm
    have := Call_sent lib api now path params sent hm
    rw [hb] at this
    injection this with this
    injection this with this
    exact this.symm

/-- C8 at a concrete call: the request built for `Call("2/money/info", nil)` in
mode `Auto` with credentials carries the key in `Rest-Key`. -/
theorem rest_headers_witness :
    ∃ h0 secret data,
      DecodeString sampleApi.ApiSecret = .ok secret
      ∧ sampleApi.signedData 1000000000
          ⟨some h0, TrimLeft (lit "2/money/info"), parseParameters sampleLib []⟩ = some data
      ∧ (signedRequest sampleLib sampleApi (lit "testsecret")
            (lit "money/info\x00tonce=1000000") [(lit "tonce", [lit "1000000"])]
            (samplePost "2/money/info")).Header.lookup (lit "Rest-Key") = [sampleApi.ApiKey]
      ∧ (signedRequest sampleLib sampleApi (lit "testsecret")
            (lit "money/info\x00tonce=1000000") [(lit "tonce", [lit "1000000"])]
            (samplePost "2/money/info")).Header.lookup (lit "Rest-Sign")
          = [EncodeToString (sampleLib.hmacSha512 secret data)] :=
  (rest_headers sampleLib sampleApi 1000000000 (lit "2/money/info") []
    (signedRequest sampleLib sampleApi (lit "testsecret")
      (lit "money/info\x00tonce=1000000") [(lit "tonce", [lit "1000000"])]
      (samplePost "2/money/info")) (by decide)).2.1 (by decide)

/-! ## What `base64.StdEncoding` rejects -/

theorem decodeQuanta_bytes (n : Nat) : ∀ (l : GoString), l.length ≤ n →
    ∀ out, decodeQuanta l = some out → ∀ x ∈ l, (b64Value x).isSome = true ∨ x = 61 := by
  induction n with
  | zero =>
    intro l hl out _ x hx
    have : l = [] := List.length_eq_zero.mp (Nat.le_zero.mp hl)
    subst this
    cases hx
  | succ n ih =>
    intro l hl out h x hx
    match l, hl, h, hx with
    | [], _, _, hx' => cases hx'
    | [_], _, h', _ => simp [decodeQuanta] at h'
    | [_, _], _, h', _ => simp [decodeQuanta] at h'
    | [_, _, _], _, h', _ => simp [decodeQuanta] at h'
    | a :: b :: c :: d :: rest, hl', h', hx' =>
      cases ha : b64Value a with
      | none => simp [decodeQuanta, ha] at h'
      | some va =>
        cases hb : b64Value b with
        | none => simp [decodeQuanta, ha, hb] at h'
        | some vb =>
          have hA : (b64Value a).isSome = true := by rw [ha]; rfl
          have hB : (b64Value b).isSome = true := by rw [hb]; rfl
          cases hc : b64Value c with
          | none =>
            simp [decodeQuanta, ha, hb, hc] at h'
            obtain ⟨⟨h1, h2, h3⟩, _⟩ := h'
            simp only [List.mem_cons, h3, List.not_mem_nil, or_false] at hx'
            rcases hx' with e | e | e | e
            · exact Or.inl (e ▸ hA)
            · exact Or.inl (e ▸ hB)
            · exact Or.inr (e.trans h1)
            · exact Or.inr (e.trans h2)
          | some vc =>
            have hC : (b64Value c).isSome = true := by rw [hc]; rfl
            cases hd : b64Value d with
            | none =>
              simp [decodeQuanta, ha, hb, hc, hd] at h'
              obtain ⟨⟨h1, h2⟩, _⟩ := h'
              simp only [List.mem_cons, h2, List.not_mem_nil, or_false] at hx'
              rcases hx' with e | e | e | e
              · exact Or.inl (e ▸ hA)
              · exact Or.inl (e ▸ hB)
              · exact Or.inl (e ▸ hC)
              · exact Or.inr (e.trans h1)
            | some vd =>
              have hD : (b64Value d).isSome = true := by rw [hd]; rfl
              cases hr : decodeQuanta rest with
              | none => simp [decodeQuanta, ha, hb, hc, hd, hr] at h'
              | some o =>
                have hlen : rest.length ≤ n := by
                  simp only [List.length_cons] at hl'
                  omega
                simp only [List.mem_cons] at hx'
                rcases hx' with e | e | e | e | e
                · exact Or.inl (e ▸ hA)
                · exact Or.inl (e ▸ hB)
                · exact Or.inl (e ▸ hC)
                · exact Or.inl (e ▸ hD)
                · exact ih rest hlen o hr x e

/-- A secret with a byte that is not of the alphabet, not `=` and not a line
break is not decoded. -/
theorem DecodeString_foreign (s : GoString) (x : UInt8) (hx : x ∈ s)
    (hv : b64Value x = none) (h61 : x ≠ 61) (h10 : x ≠ 10) (h13 : x ≠ 13) :
    ∀ key, DecodeString s ≠ .ok key := by
  intro key h
  unfold DecodeString at h
  cases hq : decodeQuanta (s.filter fun c => !(c = 10 || c = 13)) with
  | none =>
    rw [hq] at h
    cases h
  | some out =>
    have hm : x ∈ s.filter fun c => !(c = 10 || c = 13) := by
      simp [List.mem_filter, hx, h10, h13]
    rcases decodeQuanta_bytes _ _ (le_refl _) out hq x hm with h1 | h1
    · rw [hv] at h1
      cases h1
    · exact h61 h1

/-! ## C9: a secret that is not base64 -/

/-- C9: for every secret that `base64.StdEncoding` does not decode and every
path with a version digit from 0 to 2, in the signing branch `auth` returns
the base64 error (the `InvalidSecret` of the specification) and leaves the
HTTP request without `Rest-Key` and `Rest-Sign`; `Call` hands no request to
the transport and returns an error, which is that base64 error whenever the
URL parses. -/
theorem invalid_secret (lib : Stdlib) (api : Api) (now : Int) (path : GoString)
    (params : List (GoString × Value)) (v : Nat)
    (hdo : api.doAuth = true)
    (hv : versionDigit (TrimLeft path) = some v) (hv2 : v ≤ 2)
    (hbad : ∀ key, DecodeString api.ApiSecret ≠ .ok key) :
    (∀ hh ps, api.auth lib now ⟨hh, TrimLeft path, ps⟩
        = .ret (⟨hh, TrimLeft path, ps.Add (lit "tonce") (FormatInt (Int.tdiv now 1000))⟩,
            some .CorruptInputError))
    ∧ (api.Call lib now path params).sent = []
    ∧ (∃ e, (api.Call lib now path params).result = .ret ([], some e))
    ∧ (∀ url h0,
        lib.urlParse (lit "https://data.mtgox.com/api/" ++ TrimLeft path) = .ok url →
        NewRequest lib (lit "POST") (lib.urlString { url with Host := lit "mtgox.com" })
          = .ok h0 →
        (api.Call lib now path params).result = .ret ([], some .CorruptInputError)) := by
  have hdec : DecodeString api.ApiSecret = .error .CorruptInputError := by
    cases hs : DecodeString api.ApiSecret with
    | error e => rw [DecodeString_error _ _ hs]
    | ok key => exact absurd hs (hbad key)
  have hA : ∀ hh ps, api.authData now ⟨hh, TrimLeft path, ps⟩
      = .ret (withTonce now ⟨hh, TrimLeft path, ps⟩, .error .CorruptInputError) := by
    intro hh ps
    rw [authData_version api now ⟨hh, TrimLeft path, ps⟩ v hv hv2, hdec]
  have hauth : ∀ hh ps, api.auth lib now ⟨hh, TrimLeft path, ps⟩
      = .ret (⟨hh, TrimLeft path, ps.Add (lit "tonce") (FormatInt (Int.tdiv now 1000))⟩,
          some .CorruptInputError) := by
    intro hh ps
    exact auth_of_error lib api now _ _ _ (hA hh ps)
  have hbuild : ∃ e, api.buildRequest lib now path params = .ret (.error e)
      ∧ (∀ url h0,
        lib.urlParse (lit "https://data.mtgox.com/api/" ++ TrimLeft path) = .ok url →
        NewRequest lib (lit "POST") (lib.urlString { url with Host := lit "mtgox.com" })
          = .ok h0 → e = .CorruptInputError) := by
    cases hu : lib.urlParse (lit "https://data.mtgox.com/api/" ++ TrimLeft path) with
    | error e =>
      exact ⟨e, buildRequest_of_url_error lib api now path params e hu,
        fun url h0 hu' _ => by cases hu'⟩
    | ok url =>
      rw [buildRequest_of_url lib api now path params url hu, if_pos hdo]
      cases hn : NewRequest lib (lit "POST")
          (lib.urlString { url with Host := lit "mtgox.com" }) with
      | error e =>
        refine ⟨e, callPrivate_of_error lib api now _ url e hn, ?_⟩
        intro url' h0 hu' hn'
        cases hu'
        rw [hn] at hn'
        cases hn'
      | ok h0 =>
        refine ⟨.CorruptInputError, ?_, fun _ _ _ _ => rfl⟩
        rw [callPrivate_of_newRequest lib api now _ url h0 hn]
        simp only [hA]
  obtain ⟨e, he, hE⟩ := hbuild
  refine ⟨hauth, ?_, ⟨e, ?_⟩, ?_⟩
  · simp [Api.Call, he]
  · simp [Api.Call, he]
  · intro url h0 hu hn
    rw [hE url h0 hu hn] at he
    simp [Api.Call, he]

/-- C9 at the secret `not-base64!`, which has the byte `-`, and the path
`2/money/info`: nothing is sent. -/
theorem invalid_secret_witness :
    ((NewApi (lit "key") (lit "not-base64!")).Call sampleLib 1000000000
      (lit "2/money/info") []).sent = [] :=
  (invalid_secret sampleLib (NewApi (lit "key") (lit "not-base64!")) 1000000000
    (lit "2/money/info") [] 2 (by decide) (by decide) (by decide)
    (DecodeString_foreign (lit "not-base64!") 45 (by decide) (by decide) (by decide)
      (by decide) (by decide))).2.1

/-! ## C10: `parseParameters` -/

theorem parseParameters_eq (lib : Stdlib) (params : List (GoString × Value)) :
    parseParameters lib params
      = params.foldl
          (fun (parameters : Values) entry =>
            match castToString lib entry.2 with
            | some s => parameters.Add entry.1 s
            | none => parameters)
          [] := by
  unfold parseParameters
  congr 1
  funext parameters entry
  cases h : entry.2 <;> simp [castToString]
  split <;> rfl

theorem foldl_lookup (lib : Stdlib) (key : GoString) (params : List (GoString × Value)) :
    ∀ acc : Values,
      (params.foldl
          (fun (parameters : Values) entry =>
            match castToString lib entry.2 with
            | some s => parameters.Add entry.1 s
            | none => parameters)
          acc).lookup key
        = acc.lookup key
          ++ params.filterMap (fun e => if e.1 = key then castToString lib e.2 else none) := by
  induction params with
  | nil => intro acc; simp
  | cons e rest ih =>
    intro acc
    rw [List.foldl_cons, ih]
    cases hc : castToString lib e.2 with
    | none => simp [hc]
    | some s =>
      by_cases hk : e.1 = key
      · simp [hc, hk, lookup_Add_self]
      · have : key ≠ e.1 := fun h => hk h.symm
        simp [hc, hk, lookup_Add_other _ _ _ _ this]

theorem filterMap_absent (lib : Stdlib) (key : GoString) (params : List (GoString × Value))
    (h : key ∉ params.map Prod.fst) :
    params.filterMap (fun e => if e.1 = key then castToString lib e.2 else none) = [] := by
  induction params with
  | nil => rfl
  | cons e rest ih =>
    simp only [List.map_cons, List.mem_cons, not_or] at h
    have hk : ¬ e.1 = key := fun h' => h.1 h'.symm
    simp [hk, ih h.2]

theorem filterMap_unique (lib : Stdlib) (key : GoString) (value : Value)
    (params : List (GoString × Value)) (hnd : (params.map Prod.fst).Nodup)
    (hm : (key, value) ∈ params) :
    params.filterMap (fun e => if e.1 = key then castToString lib e.2 else none)
      = (castToString lib value).toList := by
  induction params with
  | nil => cases hm
  | cons e rest ih =>
    simp only [List.map_cons, List.nodup_cons] at hnd
    rcases List.mem_cons.mp hm with h | h
    · subst h
      have := filterMap_absent lib key rest hnd.1
      cases hc : castToString lib value <;> simp [hc, this]
    · have hkey : key ∈ rest.map Prod.fst := List.mem_map.mpr ⟨(key, value), h, rfl⟩
      have hk : ¬ e.1 = key := fun h' => hnd.1 (h' ▸ hkey)
      simp [hk, ih hnd.2 h]

/-- The values under a key of the input map in the output of `parseParameters`:
the string of the type switch, or nothing when the switch has no case. -/
theorem parseParameters_lookup (lib : Stdlib) (params : List (GoString × Value))
    (hnd : (params.map Prod.fst).Nodup) (key : GoString) (value : Value)
    (hm : (key, value) ∈ params) :
    (parseParameters lib params).lookup key = (castToString lib value).toList := by
  rw [parseParameters_eq, foldl_lookup, filterMap_unique lib key value params hnd hm]
  rfl

/-- C10, as the claim states it, fails: a key whose value is an `int32` (or an
`int8`, or an `int16`) is not in the output of `parseParameters`, whose type
switch has no case for these types. -/
theorem parseParameters_drops_int32 :
    (parseParameters sampleLib [(lit "amount", .int32 5)]).lookup (lit "amount") = []
    ∧ parseParameters sampleLib [(lit "amount", .int32 5)] = []
    ∧ parseParameters sampleLib [(lit "a", .int8 5), (lit "b", .int16 5)] = [] := by
  decide

/-- C10, amended: for every input map, every key whose value is text, an `int`
or an `int64`, a `float64` or a `float32`, or a boolean has exactly one value
in the output of `parseParameters`: the text, the decimal rendering, the
formatted float, `1` or `0`. -/
theorem parseParameters_one_value (lib : Stdlib) (params : List (GoString × Value))
    (hnd : (params.map Prod.fst).Nodup) (key : GoString) (value : Value)
    (hm : (key, value) ∈ params) :
    (∀ s, value = .string s → (parseParameters lib params).lookup key = [s])
    ∧ (∀ n, value = .int n → (parseParameters lib params).lookup key = [FormatInt n])
    ∧ (∀ n, value = .int64 n → (parseParameters lib params).lookup key = [FormatInt n])
    ∧ (∀ bits, value = .float64 bits →
        (parseParameters lib params).lookup key = [lib.formatFloat64 bits])
    ∧ (∀ bits, value = .float32 bits →
        (parseParameters lib params).lookup key = [lib.formatFloat32 bits])
    ∧ (∀ b, value = .bool b →
        (parseParameters lib params).lookup key = [if b then lit "1" else lit "0"]) := by
  have key_eq := parseParameters_lookup lib params hnd key value hm
  refine ⟨?_, ?_, ?_, ?_, ?_, ?_⟩ <;> intro x hx <;> rw [key_eq, hx] <;> rfl

/-- C10, amended, at the map `{"amount": int64(-5), "live": true}`. -/
theorem parseParameters_one_value_witness :
    (parseParameters sampleLib [(lit "amount", .int64 (-5)), (lit "live", .bool true)]).lookup
        (lit "amount") = [FormatInt (-5)] :=
  (parseParameters_one_value sampleLib [(lit "amount", .int64 (-5)), (lit "live", .bool true)]
    (by decide) (lit "amount") (.int64 (-5)) (by decide)).2.2.1 (-5) rfl

/-! ## C13: switching the mode -/

/-- C13: `Public`, `Private` and `Auto` return a client whose mode is `Public`,
`Private` and `Auto`, with the `ApiKey`, the `ApiSecret` and `Debug` of the
client they are called on; they are functions of a value, so the client they
are called on is what it was (a client from `NewApi` is in mode `Auto`, and
after `api.Public()` it still signs exactly when it has a key and a secret);
in a chain the last switch gives the mode. -/
theorem mode_switch (a : Api) (key secret : GoString) :
    (a.Public.Auth = .Public ∧ a.Private.Auth = .Private ∧ a.Auto.Auth = .Auto)
    ∧ (a.Public.ApiKey = a.ApiKey ∧ a.Public.ApiSecret = a.ApiSecret
        ∧ a.Public.Debug = a.Debug)
    ∧ (a.Private.ApiKey = a.ApiKey ∧ a.Private.ApiSecret = a.ApiSecret
        ∧ a.Private.Debug = a.Debug)
    ∧ (a.Auto.ApiKey = a.ApiKey ∧ a.Auto.ApiSecret = a.ApiSecret ∧ a.Auto.Debug = a.Debug)
    ∧ (a.Public = { a with Auth := .Public } ∧ a.Private = { a with Auth := .Private }
        ∧ a.Auto = { a with Auth := .Auto })
    ∧ (a.Public.Private = a.Private ∧ a.Private.Public = a.Public ∧ a.Public.Auto = a.Auto
        ∧ a.Auto.Public = a.Public ∧ a.Private.Auto = a.Auto ∧ a.Auto.Private = a.Private)
    ∧ (NewApi key secret).Auth = .Auto
    ∧ (NewApi key secret).Public.doAuth = false
    ∧ (NewApi key secret).doAuth = (decide (key ≠ []) && decide (secret ≠ [])) := by
  refine ⟨⟨rfl, rfl, rfl⟩, ⟨rfl, rfl, rfl⟩, ⟨rfl, rfl, rfl⟩, ⟨rfl, rfl, rfl⟩, ⟨rfl, rfl, rfl⟩,
    ⟨rfl, rfl, rfl, rfl, rfl, rfl⟩, rfl, rfl, ?_⟩
  simp [Api.doAuth, NewApi]

/-! ## C18 and C19: the nonce, and the body that is sent -/

theorem authData_ok_inv (api : Api) (now : Int) (request r : Request) (secret : List UInt8)
    (data : GoString) (h : api.authData now request = .ret (r, .ok (secret, data))) :
    ∃ v, versionDigit request.Path = some v ∧ v ≤ 2
      ∧ DecodeString api.ApiSecret = .ok secret
      ∧ r = withTonce now request
      ∧ encodedData v (withTonce now request) = .ret data := by
  rcases authData_cases api now request with ⟨_, e⟩ | ⟨_, _, _, _, e⟩ | ⟨_, _, _, e⟩
    | ⟨_, _, _, _, e⟩ | ⟨_, _, _, _, e⟩ | ⟨v, _, _, hv, hv2, hs, he, e⟩ <;> rw [e] at h <;> cases h
  exact ⟨v, hv, hv2, hs, rfl, he⟩

theorem auth_ok_inv (lib : Stdlib) (api : Api) (now : Int) (request r : Request)
    (h : api.auth lib now request = .ret (r, none)) :
    ∃ h0 secret data,
      request.HttpRequest = some h0
      ∧ api.authData now request = .ret (withTonce now request, .ok (secret, data))
      ∧ r = withHeaders lib api secret data (withTonce now request) h0 := by
  cases hA : api.authData now request with
  | panic =>
    rw [auth_of_panic lib api now request hA] at h
    cases h
  | ret p =>
    obtain ⟨r', x⟩ := p
    cases x with
    | error e =>
      rw [auth_of_error lib api now request r' e hA] at h
      cases h
    | ok sd =>
      obtain ⟨secret, data⟩ := sd
      obtain ⟨_, _, _, _, hr, _⟩ := authData_ok_inv api now request r' secret data hA
      subst hr
      cases hh : request.HttpRequest with
      | none => simp [Api.auth, hA, withTonce, hh] at h
      | some h0 =>
        rw [auth_of_data lib api now request _ secret data h0 hA
          (by simpa [withTonce] using hh)] at h
        cases h
        exact ⟨h0, secret, data, rfl, rfl, rfl⟩

/-- C18: when `auth` returns without an error, the parameters of the request
are the ones it was given with one value added under `tonce`: the decimal
rendering of the clock reading in nanoseconds divided by 1000, truncated. The
values already under `tonce` are kept, in place, in front of it, and every other
key has the values it had. -/
theorem auth_adds_one_tonce (lib : Stdlib) (api : Api) (now : Int) (request r : Request)
    (h : api.auth lib now request = .ret (r, none)) :
    r.Parameters = request.Parameters.Add (lit "tonce") (FormatInt (Int.tdiv now 1000))
    ∧ r.Parameters.lookup (lit "tonce")
        = request.Parameters.lookup (lit "tonce") ++ [FormatInt (Int.tdiv now 1000)]
    ∧ (∀ key, key ≠ lit "tonce" → r.Parameters.lookup key = request.Parameters.lookup key)
    ∧ r.Path = request.Path
    ∧ (0 ≤ now → Int.tdiv now 1000 = now / 1000)
    ∧ (now < 0 → Int.tdiv now 1000 = - ((- now) / 1000)) := by
  obtain ⟨h0, secret, data, _, _, rfl⟩ := auth_ok_inv lib api now request r h
  refine ⟨rfl, ?_, ?_, rfl, ?_, ?_⟩
  · simp [withHeaders, withTonce, lookup_Add_self]
  · intro key hk
    simp [withHeaders, withTonce, lookup_Add_other _ _ _ _ hk]
  · intro h0
    exact Int.tdiv_eq_ediv h0 (by decide)
  · intro hneg
    have h1 : Int.tdiv now 1000 = - Int.tdiv (- now) 1000 := by
      rw [Int.neg_tdiv, neg_neg]
    rw [h1, Int.tdiv_eq_ediv (by omega) (by decide)]

/-- C18 at a concrete run: version 1, no parameter before, the clock at
1000000999 nanoseconds. -/
theorem auth_adds_one_tonce_witness :
    (withHeaders sampleLib sampleApi (lit "testsecret") (lit "tonce=1000000")
        ⟨some (samplePost "1/x"), lit "1/x", [(lit "tonce", [lit "1000000"])]⟩
        (samplePost "1/x")).Parameters.lookup (lit "tonce")
      = Values.lookup [] (lit "tonce") ++ [FormatInt (Int.tdiv 1000000999 1000)] :=
  (auth_adds_one_tonce sampleLib sampleApi 1000000999
    ⟨some (samplePost "1/x"), lit "1/x", []⟩ _ (by decide)).2.1

/-- C19: the body of a request built by the signing branch of `Call` is the
encoding of the parameters with the nonce, and this same string is what `auth`
signed: all of the signed data for version 0 and 1, and for version 2 the
signed data after the path without its first two bytes and one NUL byte.
`ContentLength` is the length of that body. -/
theorem body_is_signed_parameters (lib : Stdlib) (api : Api) (now : Int) (path : GoString)
    (params : List (GoString × Value)) (h : HttpRequest)
    (hdo : api.doAuth = true)
    (hb : api.buildRequest lib now path params = .ret (.ok h)) :
    ∃ h0 v data,
      versionDigit (TrimLeft path) = some v ∧ v ≤ 2
      ∧ api.signedData now ⟨some h0, TrimLeft path, parseParameters lib params⟩ = some data
      ∧ h.Body = some (((parseParameters lib params).Add (lit "tonce")
          (FormatInt (Int.tdiv now 1000))).Encode)
      ∧ h.ContentLength = (((parseParameters lib params).Add (lit "tonce")
          (FormatInt (Int.tdiv now 1000))).Encode).length
      ∧ (v ≠ 2 → data = ((parseParameters lib params).Add (lit "tonce")
          (FormatInt (Int.tdiv now 1000))).Encode)
      ∧ (v = 2 → data = (TrimLeft path).drop 2 ++ [0]
          ++ ((parseParameters lib params).Add (lit "tonce")
            (FormatInt (Int.tdiv now 1000))).Encode) := by
  have hb' := hb
  unfold Api.buildRequest at hb'
  cases hu : lib.urlParse (lit "https://data.mtgox.com/api/" ++ TrimLeft path) with
  | error e => simp [hu] at hb'
  | ok url =>
    simp [hu, hdo] at hb'
    obtain ⟨h0, r, secret, data, hn, hA, rfl⟩ := callPrivate_ok lib api now _ url h hb'
    obtain ⟨v, hv, hv2, _, hr, he⟩ := authData_ok_inv api now _ r secret data hA
    subst hr
    refine ⟨h0, v, data, hv, hv2, by simp [Api.signedData, hA], rfl, rfl, ?_, ?_⟩
    · intro hne
      rcases encodedData_cases v (withTonce now
          ⟨some h0, TrimLeft path, parseParameters lib params⟩) with ⟨h2, _⟩ | ⟨h2, _⟩ | ⟨_, e⟩
      · exact absurd h2 hne
      · exact absurd h2 hne
      · rw [e] at he
        cases he
        rfl
    · intro h2
      rcases encodedData_cases v (withTonce now
          ⟨some h0, TrimLeft path, parseParameters lib params⟩) with ⟨_, _, e⟩ | ⟨_, _, e⟩ | ⟨hne, _⟩
      · rw [e] at he
        cases he
      · rw [e] at he
        cases he
        rfl
      · exact absurd h2 hne

/-- C19 at a concrete call: `Call("2/money/info", nil)` with credentials. -/
theorem body_is_signed_parameters_witness :
    ∃ h0 v data,
      versionDigit (TrimLeft (lit "2/money/info")) = some v ∧ v ≤ 2
      ∧ sampleApi.signedData 1000000000
          ⟨some h0, TrimLeft (lit "2/money/info"), parseParameters sampleLib []⟩ = some data
      ∧ (signedRequest sampleLib sampleApi (lit "testsecret")
            (lit "money/info\x00tonce=1000000") [(lit "tonce", [lit "1000000"])]
            (samplePost "2/money/info")).Body
          = some (((parseParameters sampleLib []).Add (lit "tonce")
              (FormatInt (Int.tdiv 1000000000 1000))).Encode)
      ∧ (signedRequest sampleLib sampleApi (lit "testsecret")
            (lit "money/info\x00tonce=1000000") [(lit "tonce", [lit "1000000"])]
            (samplePost "2/money/info")).ContentLength
          = (((parseParameters sampleLib []).Add (lit "tonce")
              (FormatInt (Int.tdiv 1000000000 1000))).Encode).length
      ∧ (v ≠ 2 → data = ((parseParameters sampleLib []).Add (lit "tonce")
          (FormatInt (Int.tdiv 1000000000 1000))).Encode)
      ∧ (v = 2 → data = (TrimLeft (lit "2/money/info")).drop 2 ++ [0]
          ++ ((parseParameters sampleLib []).Add (lit "tonce")
            (FormatInt (Int.tdiv 1000000000 1000))).Encode) :=
  body_is_signed_parameters sampleLib sampleApi 1000000000 (lit "2/money/info") []
    (signedRequest sampleLib sampleApi (lit "testsecret")
      (lit "money/info\x00tonce=1000000") [(lit "tonce", [lit "1000000"])]
      (samplePost "2/money/info")) (by decide) (by decide)

/-! ## C11: what `parseParameters` renders -/

theorem digit_byte (d : Nat) (hd : d < 10) :
    (48 ≤ UInt8.ofNat (48 + d) ∧ UInt8.ofNat (48 + d) ≤ 57)
    ∧ (UInt8.ofNat (48 + d)).toNat - 48 = d
    ∧ UInt8.ofNat (48 + d) ≠ 43 ∧ UInt8.ofNat (48 + d) ≠ 45
    ∧ (UInt8.ofNat (48 + d) = 48 → d = 0) := by
  interval_cases d <;> decide

theorem parse_digitsAux (M : Nat) : ∀ (fuel n : Nat) (acc : GoString), n < fuel → n ≤ M →
    parseUintLoop M (digitsAux fuel n acc) 0 = parseUintLoop M acc n := by
  intro fuel
  induction fuel with
  | zero => intro n acc h; omega
  | succ fuel ih =>
    intro n acc hf hM
    by_cases h10 : n < 10
    · obtain ⟨hr, hv, _⟩ := digit_byte n h10
      have : ¬ (M < n) := by omega
      simp [digitsAux, h10, parseUintLoop, hr, hv, this]
    · obtain ⟨hr, hv, _⟩ := digit_byte (n % 10) (Nat.mod_lt _ (by decide))
      have hdiv : n / 10 < fuel := by omega
      have hdivM : n / 10 ≤ M := by omega
      have hn : n / 10 * 10 + n % 10 = n := by omega
      have : ¬ (M < n) := by omega
      simp only [digitsAux, h10, if_false]
      rw [ih (n / 10) _ hdiv hdivM]
      simp [parseUintLoop, hr, hv, hn, this]

theorem digitsAux_head : ∀ (fuel n : Nat) (acc : GoString), n < fuel →
    ∃ d rest, d < 10 ∧ (d = 0 → n = 0 ∧ rest = acc)
      ∧ digitsAux fuel n acc = UInt8.ofNat (48 + d) :: rest := by
  intro fuel
  induction fuel with
  | zero => intro n acc h; omega
  | succ fuel ih =>
    intro n acc hf
    by_cases h10 : n < 10
    · exact ⟨n, acc, h10, fun h => ⟨h, rfl⟩, by simp [digitsAux, h10]⟩
    · obtain ⟨d, rest, hd, h0, he⟩ := ih (n / 10) (UInt8.ofNat (48 + n % 10) :: acc) (by omega)
      refine ⟨d, rest, hd, ?_, by simp [digitsAux, h10, he]⟩
      intro hz
      have := (h0 hz).1
      omega

theorem digitsAux_digits : ∀ (fuel n : Nat) (acc : GoString) (c : UInt8),
    c ∈ digitsAux fuel n acc → (48 ≤ c ∧ c ≤ 57) ∨ c ∈ acc := by
  intro fuel
  induction fuel with
  | zero =>
    intro n acc c h
    exact Or.inr h
  | succ fuel ih =>
    intro n acc c h
    by_cases h10 : n < 10
    · simp only [digitsAux, h10, if_true, List.mem_cons] at h
      rcases h with h | h
      · exact Or.inl (h ▸ (digit_byte n h10).1)
      · exact Or.inr h
    · simp only [digitsAux, h10, if_false] at h
      rcases ih _ _ c h with h | h
      · exact Or.inl h
      · rcases List.mem_cons.mp h with h | h
        · exact Or.inl (h ▸ (digit_byte (n % 10) (Nat.mod_lt _ (by decide))).1)
        · exact Or.inr h

/-- `strconv.ParseUint` reads back what `strconv.FormatUint` writes. -/
theorem ParseUint_FormatUint (n bitSize : Nat) (h : n ≤ 2 ^ bitSize - 1) :
    ParseUint (FormatUint n) bitSize = .ok n := by
  obtain ⟨d, rest, _, _, he⟩ := digitsAux_head (n + 1) n [] (Nat.lt_succ_self n)
  have hp := parse_digitsAux (2 ^ bitSize - 1) (n + 1) n [] (Nat.lt_succ_self n) h
  unfold FormatUint
  unfold ParseUint
  rw [he] at hp ⊢
  simp only
  rw [hp]
  rfl

/-- `strconv.ParseInt` reads back what `strconv.FormatInt` writes, for every
value of an `int64`. -/
theorem ParseInt_FormatInt (n : Int) (hlo : -2 ^ 63 ≤ n) (hhi : n < 2 ^ 63) :
    ParseInt (FormatInt n) 64 = .ok n := by
  obtain ⟨d, rest, hd, _, he⟩ := digitsAux_head (n.natAbs + 1) n.natAbs [] (Nat.lt_succ_self _)
  obtain ⟨_, _, h43, h45, _⟩ := digit_byte d hd
  have hM : n.natAbs ≤ 2 ^ 64 - 1 := by omega
  have hU := ParseUint_FormatUint n.natAbs 64 hM
  by_cases hneg : n < 0
  · have hc : ¬ (9223372036854775808 < n.natAbs) := by omega
    have hn : - |n| = n := by rw [abs_of_neg hneg, neg_neg]
    simp [FormatInt, hneg, ParseInt, hU, hc, hn]
  · have hF : FormatInt n = UInt8.ofNat (48 + d) :: rest := by
      simp only [FormatInt, hneg, if_false]
      exact he
    have hU' : ParseUint (UInt8.ofNat (48 + d) :: rest) 64 = .ok n.natAbs := by
      rw [← he]
      exact hU
    have hc : n.natAbs < 9223372036854775808 := by omega
    have hn : |n| = n := abs_of_nonneg (by omega)
    rw [hF]
    simp [ParseInt, h43, h45, hU', hc, hn]

/-- C11: for every entry of the input map, `parseParameters` puts under its key
the text itself for a text; `1` or `0` for a boolean; and for an `int` or an
`int64` the decimal rendering: an optional `-` followed by digits only, with
no leading zero, which `strconv.ParseInt` reads back as the same number. -/
theorem parseParameters_round_trip (lib : Stdlib) (params : List (GoString × Value))
    (hnd : (params.map Prod.fst).Nodup) (key : GoString) (value : Value)
    (hm : (key, value) ∈ params) :
    (∀ s, value = .string s → (parseParameters lib params).lookup key = [s])
    ∧ (∀ b, value = .bool b →
        (parseParameters lib params).lookup key = [if b then lit "1" else lit "0"])
    ∧ (∀ n, (value = .int n ∨ value = .int64 n) →
        (parseParameters lib params).lookup key = [FormatInt n]
        ∧ FormatInt n = (if n < 0 then [45] else []) ++ FormatUint n.natAbs
        ∧ (∀ c ∈ FormatUint n.natAbs, 48 ≤ c ∧ c ≤ 57)
        ∧ (∀ rest, FormatUint n.natAbs = 48 :: rest → n = 0 ∧ rest = [])
        ∧ (-2 ^ 63 ≤ n → n < 2 ^ 63 → ParseInt (FormatInt n) 64 = .ok n)) := by
  have key_eq := parseParameters_lookup lib params hnd key value hm
  refine ⟨?_, ?_, ?_⟩
  · intro s hs
    rw [key_eq, hs]
    rfl
  · intro b hb
    rw [key_eq, hb]
    rfl
  · intro n hn
    refine ⟨?_, ?_, ?_, ?_, ParseInt_FormatInt n⟩
    · rcases hn with hn | hn <;> rw [key_eq, hn] <;> rfl
    · by_cases hneg : n < 0 <;> simp [FormatInt, hneg]
    · intro c hc
      rcases digitsAux_digits _ _ _ c hc with h | h
      · exact h
      · cases h
    · intro rest hr
      obtain ⟨d, rest', hd, h0, he⟩ :=
        digitsAux_head (n.natAbs + 1) n.natAbs [] (Nat.lt_succ_self _)
      unfold FormatUint at hr
      rw [he] at hr
      injection hr with h1 h2
      have hz := (digit_byte d hd).2.2.2.2 h1
      obtain ⟨hn0, hr0⟩ := h0 hz
      exact ⟨by omega, by rw [← h2, hr0]⟩

/-- C11 at the map `{"amount": int64(-1234500), "live": true}`. -/
theorem parseParameters_round_trip_witness :
    (parseParameters sampleLib
        [(lit "amount", .int64 (-1234500)), (lit "live", .bool true)]).lookup (lit "live")
      = [if true then lit "1" else lit "0"] :=
  (parseParameters_round_trip sampleLib
    [(lit "amount", .int64 (-1234500)), (lit "live", .bool true)]
    (by decide) (lit "live") (.bool true) (by decide)).2.1 true rfl

/-! ## C12: values that `parseParameters` leaves out -/

theorem keys_Add (v : Values) (key value : GoString) :
    (v.Add key value).map Prod.fst
      = if key ∈ v.map Prod.fst then v.map Prod.fst else v.map Prod.fst ++ [key] := by
  induction v with
  | nil => simp [Values.Add]
  | cons e rest ih =>
    obtain ⟨k, vs⟩ := e
    by_cases hk : k = key
    · simp [Values.Add, hk]
    · have hk' : ¬ key = k := fun h => hk h.symm
      by_cases hm : key ∈ rest.map Prod.fst
      · simp only [Values.Add, hk, if_false, List.map_cons, ih, hm, if_true, List.mem_cons,
          or_true]
      · simp only [Values.Add, hk, if_false, List.map_cons, ih, hm, List.mem_cons, hk',
          or_self, List.cons_append]

theorem mem_keys_Add (v : Values) (key value other : GoString) :
    other ∈ (v.Add key value).map Prod.fst ↔ other ∈ v.map Prod.fst ∨ other = key := by
  rw [keys_Add]
  by_cases hm : key ∈ v.map Prod.fst
  · simp only [hm, if_true]
    constructor
    · exact Or.inl
    · rintro (h | h)
      · exact h
      · exact h ▸ hm
  · simp [hm]

theorem nodup_keys_Add (v : Values) (key value : GoString) (h : (v.map Prod.fst).Nodup) :
    ((v.Add key value).map Prod.fst).Nodup := by
  rw [keys_Add]
  by_cases hm : key ∈ v.map Prod.fst
  · simpa [hm] using h
  · simp only [hm, if_false]
    exact List.Nodup.append h (List.nodup_singleton key)
      (by
        intro a ha hb
        rw [List.mem_singleton] at hb
        exact hm (hb ▸ ha))

theorem foldl_keys (lib : Stdlib) (key : GoString) (params : List (GoString × Value)) :
    ∀ acc : Values,
      key ∈ (params.foldl
          (fun (parameters : Values) entry =>
            match castToString lib entry.2 with
            | some s => parameters.Add entry.1 s
            | none => parameters)
          acc).map Prod.fst
        ↔ key ∈ acc.map Prod.fst
          ∨ ∃ e ∈ params, e.1 = key ∧ castToString lib e.2 ≠ none := by
  induction params with
  | nil => intro acc; simp
  | cons e rest ih =>
    intro acc
    rw [List.foldl_cons, ih]
    cases hc : castToString lib e.2 with
    | none =>
      constructor
      · rintro (h | ⟨e', he', h1, h2⟩)
        · exact Or.inl h
        · exact Or.inr ⟨e', List.mem_cons_of_mem _ he', h1, h2⟩
      · rintro (h | ⟨e', he', h1, h2⟩)
        · exact Or.inl h
        · rcases List.mem_cons.mp he' with h' | h'
          · subst h'
            exact absurd hc h2
          · exact Or.inr ⟨e', h', h1, h2⟩
    | some s =>
      simp only [mem_keys_Add]
      constructor
      · rintro ((h | h) | ⟨e', he', h1, h2⟩)
        · exact Or.inl h
        · exact Or.inr ⟨e, List.mem_cons_self _ _, h.symm, by rw [hc]; simp⟩
        · exact Or.inr ⟨e', List.mem_cons_of_mem _ he', h1, h2⟩
      · rintro (h | ⟨e', he', h1, h2⟩)
        · exact Or.inl (Or.inl h)
        · rcases List.mem_cons.mp he' with h' | h'
          · subst h'
            exact Or.inl (Or.inr h1.symm)
          · exact Or.inr ⟨e', h', h1, h2⟩

theorem nodup_keys_foldl (lib : Stdlib) (params : List (GoString × Value)) :
    ∀ acc : Values, (acc.map Prod.fst).Nodup →
      ((params.foldl
          (fun (parameters : Values) entry =>
            match castToString lib entry.2 with
            | some s => parameters.Add entry.1 s
            | none => parameters)
          acc).map Prod.fst).Nodup := by
  induction params with
  | nil => intro acc h; exact h
  | cons e rest ih =>
    intro acc h
    rw [List.foldl_cons]
    apply ih
    cases castToString lib e.2 with
    | none => exact h
    | some s => exact nodup_keys_Add acc e.1 s h

theorem nodup_keys_parseParameters (lib : Stdlib) (params : List (GoString × Value)) :
    ((parseParameters lib params).map Prod.fst).Nodup := by
  rw [parseParameters_eq]
  exact nodup_keys_foldl lib params [] List.nodup_nil

theorem mem_keys_parseParameters (lib : Stdlib) (params : List (GoString × Value))
    (key : GoString) :
    key ∈ (parseParameters lib params).map Prod.fst
      ↔ ∃ e ∈ params, e.1 = key ∧ castToString lib e.2 ≠ none := by
  rw [parseParameters_eq, foldl_keys]
  simp

theorem parseParameters_skip (lib : Stdlib) (before after : List (GoString × Value))
    (key : GoString) (value : Value) (h : castToString lib value = none) :
    parseParameters lib (before ++ (key, value) :: after)
      = parseParameters lib (before ++ after) := by
  rw [parseParameters_eq, parseParameters_eq, List.foldl_append, List.foldl_append,
    List.foldl_cons]
  simp only [h]

/-- C12: `parseParameters` returns a `url.Values` for every input map, with no
error; an entry whose value has a type other than `string`, `int`, `int64`,
`float64`, `float32` and `bool` changes nothing in the output, which is the
output for the map without that entry: its key is not a key of the output and
every other key has the values it has without it. -/
theorem parseParameters_drops_unsupported (lib : Stdlib)
    (before after : List (GoString × Value)) (key : GoString) (value : Value)
    (hv : (∃ n, value = .int8 n) ∨ (∃ n, value = .int16 n) ∨ (∃ n, value = .int32 n)
      ∨ value = .other)
    (hnd : ((before ++ (key, value) :: after).map Prod.fst).Nodup) :
    parseParameters lib (before ++ (key, value) :: after)
      = parseParameters lib (before ++ after)
    ∧ key ∉ (parseParameters lib (before ++ (key, value) :: after)).map Prod.fst
    ∧ (parseParameters lib (before ++ (key, value) :: after)).lookup key = []
    ∧ (∀ other, (parseParameters lib (before ++ (key, value) :: after)).lookup other
        = (parseParameters lib (before ++ after)).lookup other) := by
  have hc : castToString lib value = none := by
    rcases hv with ⟨n, h⟩ | ⟨n, h⟩ | ⟨n, h⟩ | h <;> rw [h] <;> rfl
  have hskip := parseParameters_skip lib before after key value hc
  have hmem : (key, value) ∈ before ++ (key, value) :: after := by simp
  refine ⟨hskip, ?_, ?_, ?_⟩
  · rw [mem_keys_parseParameters]
    rintro ⟨e, he, h1, h2⟩
    have hkey : ∀ e' ∈ before ++ (key, value) :: after, e'.1 = key → e' = (key, value) := by
      intro e' he' hk
      have := List.inj_on_of_nodup_map hnd he' hmem hk
      exact this
    rw [hkey e he h1] at h2
    exact h2 hc
  · rw [parseParameters_lookup lib _ hnd key value hmem, hc]
    rfl
  · intro other
    rw [hskip]

/-- C12 at the map `{"a": int32(5), "b": "x"}`. -/
theorem parseParameters_drops_unsupported_witness :
    parseParameters sampleLib ([] ++ (lit "a", .int32 5) :: [(lit "b", .string (lit "x"))])
      = parseParameters sampleLib ([] ++ [(lit "b", .string (lit "x"))]) :=
  (parseParameters_drops_unsupported sampleLib [] [(lit "b", .string (lit "x"))] (lit "a")
    (.int32 5) (Or.inr (Or.inr (Or.inl ⟨5, rfl⟩))) (by decide)).1

/-! ## C20: the NUL byte in the signed data -/

set_option maxRecDepth 100000 in
theorem escape_byte_no_nul (c : UInt8) :
    ∀ x ∈ (if c = 32 then [43]
      else if shouldEscape c then [37, upperhex (c.toNat / 16), upperhex (c.toNat % 16)]
      else [c]), x ≠ (0 : UInt8) := by
  revert c
  apply byte_cases
  decide

theorem QueryEscape_no_nul (s : GoString) : (0 : UInt8) ∉ QueryEscape s := by
  intro h
  unfold QueryEscape at h
  rw [List.mem_flatMap] at h
  obtain ⟨c, _, hc⟩ := h
  exact escape_byte_no_nul c 0 hc rfl

theorem foldl_invariant {α β : Type} (P : β → Prop) (f : β → α → β)
    (hf : ∀ b a, P b → P (f b a)) : ∀ (l : List α) (b : β), P b → P (l.foldl f b) := by
  intro l
  induction l with
  | nil => intro b hb; exact hb
  | cons a rest ih => intro b hb; exact ih (f b a) (hf b a hb)

theorem Encode_no_nul (v : Values) : (0 : UInt8) ∉ v.Encode := by
  unfold Values.Encode
  apply foldl_invariant (fun buf : GoString => (0 : UInt8) ∉ buf)
  · intro buf k hbuf
    apply foldl_invariant (fun buf : GoString => (0 : UInt8) ∉ buf)
    · intro b val hb
      have h1 := QueryEscape_no_nul k
      have h2 := QueryEscape_no_nul val
      by_cases hl : b.length > 0
      · simp only [hl, if_true, List.mem_append, List.mem_singleton]
        rintro ((((h | h) | h) | h) | h)
        · exact hb h
        · exact absurd h (by decide)
        · exact h1 h
        · exact absurd h (by decide)
        · exact h2 h
      · simp only [hl, if_false, List.mem_append, List.mem_singleton]
        rintro (((h | h) | h) | h)
        · exact hb h
        · exact h1 h
        · exact absurd h (by decide)
        · exact h2 h
    · exact hbuf
  · exact List.not_mem_nil 0

theorem split_at_last (x : UInt8) (a b c d : GoString) (hb : x ∉ b) (hd : x ∉ d)
    (h : a ++ x :: b = c ++ x :: d) : a = c ∧ b = d := by
  rcases List.append_eq_append_iff.mp h with ⟨a', hc, hx⟩ | ⟨c', ha, hx⟩
  · cases a' with
    | nil =>
      simp at hc hx
      exact ⟨hc.symm, hx⟩
    | cons y ys =>
      simp at hx
      exact absurd (hx.2 ▸ (by simp : x ∈ ys ++ x :: d)) hb
  · cases c' with
    | nil =>
      simp at ha hx
      exact ⟨ha, hx.symm⟩
    | cons y ys =>
      simp at hx
      exact absurd (hx.2 ▸ (by simp : x ∈ ys ++ x :: b)) hd

/-- C20: the encoded parameter string has no NUL byte, so the signed data of
version 2 splits in one way only: if `p1`, a NUL byte and the encoding of `s1`
are the same bytes as `p2`, a NUL byte and the encoding of `s2`, then `p1` is
`p2` and the two encodings are the same, also when the paths have NUL bytes. -/
theorem v2_payload_unambiguous (s1 s2 : Values) (p1 p2 : GoString) :
    (0 : UInt8) ∉ s1.Encode
    ∧ (p1 ++ [0] ++ s1.Encode = p2 ++ [0] ++ s2.Encode → p1 = p2 ∧ s1.Encode = s2.Encode) := by
  refine ⟨Encode_no_nul s1, ?_⟩
  intro h
  simp only [List.append_assoc, List.singleton_append] at h
  exact split_at_last 0 p1 _ p2 _ (Encode_no_nul s1) (Encode_no_nul s2) h

/-! ## C14 and C15: the request that is built -/

theorem callPublic_eq (lib : Stdlib) (parameters : Values) (url : URL) :
    Api.callPublic lib parameters url =
      match NewRequest lib (lit "GET") (lib.urlString
          (if parameters ≠ [] then { url with RawQuery := parameters.Encode } else url)) with
      | .error err => .ret (.error err)
      | .ok h => .ret (.ok h) := by
  unfold Api.callPublic
  cases parameters with
  | nil => simp
  | cons e rest => simp

/-- C14, as the claim states it, fails: the public call
`Call("2/BTCUSD/money/ticker?foo=bar", nil)` has no parameter, and the URL of
the GET request it builds has the query component `foo=bar`, which `url.Parse`
read from the path and line 170 leaves in place. -/
theorem public_path_query_is_kept :
    sampleApi.Public.doAuth = false
    ∧ parseParameters sampleLib [] = []
    ∧ sampleApi.Public.buildRequest sampleLib 1000000000
        (lit "2/BTCUSD/money/ticker?foo=bar") []
      = .ret (.ok { Method := lit "GET"
                    URL := { sampleUrl "data.mtgox.com" "2/BTCUSD/money/ticker" with
                      RawQuery := lit "foo=bar" }
                    Header := []
                    Body := none
                    ContentLength := 0 }) := by
  decide

/-- C14, amended: for every public call for which `url.Parse` reads
`https://data.mtgox.com/api/<path>` (leading slashes stripped), the built
request is a GET, without header or body, to that URL printed and parsed again;
if the parameters are not empty its query component is set to exactly their
encoding, and if they are empty the query component is left as `url.Parse` read
it from the path. -/
theorem public_request (lib : Stdlib) (api : Api) (now : Int) (path : GoString)
    (params : List (GoString × Value)) (url : URL)
    (hdo : api.doAuth = false)
    (hurl : lib.urlParse (lit "https://data.mtgox.com/api/" ++ TrimLeft path) = .ok url) :
    (parseParameters lib params ≠ [] →
        api.buildRequest lib now path params =
          match NewRequest lib (lit "GET") (lib.urlString
              { url with RawQuery := (parseParameters lib params).Encode }) with
          | .error err => .ret (.error err)
          | .ok h => .ret (.ok h))
    ∧ (parseParameters lib params = [] →
        api.buildRequest lib now path params =
          match NewRequest lib (lit "GET") (lib.urlString url) with
          | .error err => .ret (.error err)
          | .ok h => .ret (.ok h))
    ∧ (∀ h, api.buildRequest lib now path params = .ret (.ok h) →
        h.Method = lit "GET" ∧ h.Header = [] ∧ h.Body = none
        ∧ (parseParameters lib params ≠ [] →
            lib.urlParse (lib.urlString
              { url with RawQuery := (parseParameters lib params).Encode }) = .ok h.URL)
        ∧ (parseParameters lib params = [] →
            lib.urlParse (lib.urlString url) = .ok h.URL)) := by
  have hb : api.buildRequest lib now path params
      = Api.callPublic lib (parseParameters lib params) url := by
    rw [buildRequest_of_url lib api now path params url hurl]
    simp [hdo]
  refine ⟨?_, ?_, ?_⟩
  · intro hne
    rw [hb, callPublic_eq]
    simp only [hne, ne_eq, not_false_eq_true, if_true]
  · intro he
    rw [hb, callPublic_eq]
    simp only [he, ne_eq, not_true_eq_false, if_false]
  · intro h hh
    rw [hb, callPublic_eq] at hh
    cases hn : NewRequest lib (lit "GET") (lib.urlString
        (if parseParameters lib params ≠ [] then
          { url with RawQuery := (parseParameters lib params).Encode } else url)) with
    | error e =>
      rw [hn] at hh
      cases hh
    | ok h1 =>
      rw [hn] at hh
      cases hh
      obtain ⟨u, hu, rfl⟩ := NewRequest_ok lib _ _ h hn
      refine ⟨rfl, rfl, rfl, ?_, ?_⟩
      · intro hne
        simpa only [hne, ne_eq, not_false_eq_true, if_true] using hu
      · intro he
        simpa only [he, ne_eq, not_true_eq_false, if_false] using hu

/-- C14, amended, at the public call `Call("2/BTCUSD/money/ticker", {"a": 1})`. -/
theorem public_request_witness :
    sampleApi.Public.buildRequest sampleLib 1000000000 (lit "2/BTCUSD/money/ticker")
        [(lit "a", .int 1)]
      = match NewRequest sampleLib (lit "GET") (sampleLib.urlString
            { sampleUrl "data.mtgox.com" "2/BTCUSD/money/ticker" with
              RawQuery := (parseParameters sampleLib [(lit "a", .int 1)]).Encode }) with
        | .error err => .ret (.error err)
        | .ok h => .ret (.ok h) :=
  (public_request sampleLib sampleApi.Public 1000000000 (lit "2/BTCUSD/money/ticker")
    [(lit "a", .int 1)] (sampleUrl "data.mtgox.com" "2/BTCUSD/money/ticker")
    (by decide) (by decide)).1 (by decide)

/-- C15, as the claim states it, fails: the private call
`Call("2/money/info?x=1", nil)` signs, and the URL of the POST request it builds
has the query component `x=1`, which `url.Parse` read from the path. -/
theorem private_path_query_is_kept :
    sampleApi.doAuth = true
    ∧ sampleApi.buildRequest sampleLib 1000000000 (lit "2/money/info?x=1") []
      = .ret (.ok (signedRequest sampleLib sampleApi (lit "testsecret")
          (lit "money/info?x=1\x00tonce=1000000") [(lit "tonce", [lit "1000000"])]
          { Method := lit "POST"
            URL := { sampleUrl "mtgox.com" "2/money/info" with RawQuery := lit "x=1" }
            Header := []
            Body := none
            ContentLength := 0 })) := by
  decide

/-- C15, amended: for every private call that signs, the built request is a
POST to the URL that `url.Parse` reads from `https://data.mtgox.com/api/<path>`,
with the host `mtgox.com`, printed and parsed again: its query component is the
one read from the path, and the parameters are not put in it. The body is the
encoding of the parameters with the nonce, `ContentLength` is the number of
bytes of the body, and `Content-Type` is `application/x-www-form-urlencoded`. -/
theorem private_request (lib : Stdlib) (api : Api) (now : Int) (path : GoString)
    (params : List (GoString × Value)) (h : HttpRequest)
    (hdo : api.doAuth = true)
    (hb : api.buildRequest lib now path params = .ret (.ok h)) :
    ∃ url,
      lib.urlParse (lit "https://data.mtgox.com/api/" ++ TrimLeft path) = .ok url
      ∧ lib.urlParse (lib.urlString { url with Host := lit "mtgox.com" }) = .ok h.URL
      ∧ h.Method = lit "POST"
      ∧ h.Body = some (((parseParameters lib params).Add (lit "tonce")
          (FormatInt (Int.tdiv now 1000))).Encode)
      ∧ h.ContentLength = (((parseParameters lib params).Add (lit "tonce")
          (FormatInt (Int.tdiv now 1000))).Encode).length
      ∧ h.Header.lookup (lit "Content-Type") = [lit "application/x-www-form-urlencoded"] := by
  have hb' := hb
  unfold Api.buildRequest at hb'
  cases hu : lib.urlParse (lit "https://data.mtgox.com/api/" ++ TrimLeft path) with
  | error e => simp [hu] at hb'
  | ok url =>
    simp [hu, hdo] at hb'
    obtain ⟨h0, r, secret, data, hn, hA, rfl⟩ := callPrivate_ok lib api now _ url h hb'
    obtain ⟨_, _, _, _, hr, _⟩ := authData_ok_inv api now _ r secret data hA
    subst hr
    obtain ⟨u, hpu, rfl⟩ := NewRequest_ok lib _ _ h0 hn
    refine ⟨url, rfl, hpu, rfl, rfl, rfl, ?_⟩
    simp only [signedRequest]
    rw [lookup_Add_self]
    have h1 : lit "Content-Type" ≠ lit "Rest-Sign" := by decide
    have h2 : lit "Content-Type" ≠ lit "Rest-Key" := by decide
    rw [lookup_Add_other _ _ _ _ h1, lookup_Add_other _ _ _ _ h2]
    rfl

/-- C15, amended, at the private call `Call("2/money/info", nil)`. -/
theorem private_request_witness :
    ∃ url,
      sampleLib.urlParse (lit "https://data.mtgox.com/api/" ++ TrimLeft (lit "2/money/info"))
        = .ok url
      ∧ sampleLib.urlParse (sampleLib.urlString { url with Host := lit "mtgox.com" })
        = .ok (signedRequest sampleLib sampleApi (lit "testsecret")
            (lit "money/info\x00tonce=1000000") [(lit "tonce", [lit "1000000"])]
            (samplePost "2/money/info")).URL
      ∧ (signedRequest sampleLib sampleApi (lit "testsecret")
            (lit "money/info\x00tonce=1000000") [(lit "tonce", [lit "1000000"])]
            (samplePost "2/money/info")).Method = lit "POST"
      ∧ (signedRequest sampleLib sampleApi (lit "testsecret")
            (lit "money/info\x00tonce=1000000") [(lit "tonce", [lit "1000000"])]
            (samplePost "2/money/info")).Body
          = some (((parseParameters sampleLib []).Add (lit "tonce")
              (FormatInt (Int.tdiv 1000000000 1000))).Encode)
      ∧ (signedRequest sampleLib sampleApi (lit "testsecret")
            (lit "money/info\x00tonce=1000000") [(lit "tonce", [lit "1000000"])]
            (samplePost "2/money/info")).ContentLength
          = (((parseParameters sampleLib []).Add (lit "tonce")
              (FormatInt (Int.tdiv 1000000000 1000))).Encode).length
      ∧ (signedRequest sampleLib sampleApi (lit "testsecret")
            (lit "money/info\x00tonce=1000000") [(lit "tonce", [lit "1000000"])]
            (samplePost "2/money/info")).Header.lookup (lit "Content-Type")
          = [lit "application/x-www-form-urlencoded"] :=
  private_request sampleLib sampleApi 1000000000 (lit "2/money/info") []
    (signedRequest sampleLib sampleApi (lit "testsecret")
      (lit "money/info\x00tonce=1000000") [(lit "tonce", [lit "1000000"])]
      (samplePost "2/money/info")) (by decide) (by decide)

/-! ## The order of the keys in `Encode` -/

theorem byte_trichotomy (a b : UInt8) : a < b ∨ a = b ∨ b < a := by
  by_cases h1 : a < b
  · exact Or.inl h1
  · by_cases h2 : b < a
    · exact Or.inr (Or.inr h2)
    · right
      left
      have h1' : b.toBitVec.toNat ≤ a.toBitVec.toNat := Nat.le_of_not_lt h1
      have h2' : a.toBitVec.toNat ≤ b.toBitVec.toNat := Nat.le_of_not_lt h2
      exact UInt8.eq_of_toBitVec_eq (BitVec.eq_of_toNat_eq (Nat.le_antisymm h2' h1'))

theorem strLE_total : ∀ x y : GoString, strLE x y = true ∨ strLE y x = true := by
  intro x
  induction x with
  | nil => intro y; exact Or.inl rfl
  | cons a as ih =>
    intro y
    cases y with
    | nil => exact Or.inr rfl
    | cons b bs =>
      rcases byte_trichotomy a b with h | h | h
      · left
        simp [strLE, h]
      · subst h
        rcases ih bs with h' | h'
        · left
          simp [strLE, h']
        · right
          simp [strLE, h']
      · right
        simp [strLE, h]

theorem strLE_trans : ∀ x y z : GoString, strLE x y = true → strLE y z = true →
    strLE x z = true := by
  intro x
  induction x with
  | nil => intro y z _ _; rfl
  | cons a as ih =>
    intro y z hxy hyz
    cases y with
    | nil => simp [strLE] at hxy
    | cons b bs =>
      cases z with
      | nil => simp [strLE] at hyz
      | cons c cs =>
        simp only [strLE, Bool.or_eq_true, decide_eq_true_eq, Bool.and_eq_true] at hxy hyz ⊢
        rcases hxy with h1 | ⟨h1, h1'⟩
        · rcases hyz with h2 | ⟨h2, _⟩
          · exact Or.inl (UInt8.lt_trans h1 h2)
          · exact Or.inl (h2 ▸ h1)
        · rcases hyz with h2 | ⟨h2, h2'⟩
          · exact Or.inl (h1 ▸ h2)
          · exact Or.inr ⟨h1.trans h2, ih bs cs h1' h2'⟩

theorem strLE_antisymm : ∀ x y : GoString, strLE x y = true → strLE y x = true → x = y := by
  intro x
  induction x with
  | nil =>
    intro y _ hyx
    cases y with
    | nil => rfl
    | cons b bs => simp [strLE] at hyx
  | cons a as ih =>
    intro y hxy hyx
    cases y with
    | nil => simp [strLE] at hxy
    | cons b bs =>
      simp only [strLE, Bool.or_eq_true, decide_eq_true_eq, Bool.and_eq_true] at hxy hyx
      rcases hxy with h1 | ⟨h1, h1'⟩
      · rcases hyx with h2 | ⟨h2, _⟩
        · exact absurd h2 (UInt8.lt_asymm h1)
        · exact absurd (h2 ▸ h1) (UInt8.lt_irrefl _)
      · rcases hyx with h2 | ⟨_, h2'⟩
        · exact absurd (h1 ▸ h2) (UInt8.lt_irrefl _)
        · rw [h1, ih bs h1' h2']

theorem sortKeys_eq (keys : List GoString) :
    sortKeys keys = keys.insertionSort (fun a b => strLE a b = true) := by
  induction keys with
  | nil => rfl
  | cons k rest ih =>
    have hins : ∀ l : List GoString,
        insertKey k l = List.orderedInsert (fun a b => strLE a b = true) k l := by
      intro l
      induction l with
      | nil => rfl
      | cons x xs ihx =>
        by_cases h : strLE k x = true
        · simp [insertKey, List.orderedInsert, h]
        · simp [insertKey, List.orderedInsert, h, ihx]
    simp only [sortKeys, List.foldr_cons, List.insertionSort] at ih ⊢
    rw [hins, ih]

theorem sortKeys_perm (keys : List GoString) : (sortKeys keys).Perm keys := by
  rw [sortKeys_eq]
  exact List.perm_insertionSort _ keys

theorem sortKeys_sorted (keys : List GoString) :
    (sortKeys keys).Pairwise (fun a b => strLE a b = true) := by
  rw [sortKeys_eq]
  exact @List.sorted_insertionSort _ (fun a b => strLE a b = true) _
    ⟨strLE_total⟩ ⟨strLE_trans⟩ keys

theorem sortKeys_of_perm (l1 l2 : List GoString) (h : l1.Perm l2) :
    sortKeys l1 = sortKeys l2 :=
  @List.eq_of_perm_of_sorted _ (fun a b => strLE a b = true) ⟨strLE_antisymm⟩ _ _
    (((sortKeys_perm l1).trans h).trans (sortKeys_perm l2).symm)
    (sortKeys_sorted l1) (sortKeys_sorted l2)

/-! ## `Encode` as pairs joined by `&` -/

theorem joinAmp_cons (p : GoString) (rest : List GoString) :
    joinAmp (p :: rest) = p ++ rest.flatMap (fun q => 38 :: q) := by
  induction rest generalizing p with
  | nil => simp [joinAmp]
  | cons q rest ih =>
    simp only [joinAmp, ih q, List.flatMap_cons, List.cons_append]

theorem joinAmp_split (X Y : List GoString) (p : GoString) :
    joinAmp (X ++ p :: Y)
      = X.flatMap (fun x => x ++ [38]) ++ p ++ Y.flatMap (fun q => 38 :: q) := by
  induction X with
  | nil => simp [joinAmp_cons]
  | cons x xs ih =>
    cases hxs : xs ++ p :: Y with
    | nil => simp at hxs
    | cons q rest =>
      rw [List.cons_append, hxs]
      simp only [joinAmp]
      rw [← hxs, ih]
      simp [List.flatMap_cons]

theorem foldl_amp_nonempty (P : List GoString) : ∀ buf : GoString, buf ≠ [] →
    P.foldl (fun (buf : GoString) p => (if buf.length > 0 then buf ++ [38] else buf) ++ p) buf
      = buf ++ P.flatMap (fun q => 38 :: q) := by
  induction P with
  | nil => intro buf _; simp
  | cons p rest ih =>
    intro buf hb
    have hl : buf.length > 0 := List.length_pos.mpr hb
    rw [List.foldl_cons]
    simp only [hl, if_true]
    rw [ih _ (by simp)]
    simp [List.flatMap_cons]

theorem foldl_amp (P : List GoString) (hP : ∀ p ∈ P, p ≠ []) :
    P.foldl (fun (buf : GoString) p => (if buf.length > 0 then buf ++ [38] else buf) ++ p) []
      = joinAmp P := by
  cases P with
  | nil => rfl
  | cons p rest =>
    rw [List.foldl_cons, joinAmp_cons]
    have hp : p ≠ [] := hP p (List.mem_cons_self _ _)
    simp only [List.length_nil, gt_iff_lt, lt_self_iff_false, if_false, List.nil_append]
    exact foldl_amp_nonempty rest p hp

theorem foldl_flatMap_keys (f : GoString → List GoString) (keys : List GoString) :
    ∀ buf : GoString,
      keys.foldl
          (fun (buf : GoString) k =>
            (f k).foldl
              (fun (buf : GoString) p =>
                (if buf.length > 0 then buf ++ [38] else buf) ++ p) buf)
          buf
        = (keys.flatMap f).foldl
            (fun (buf : GoString) p => (if buf.length > 0 then buf ++ [38] else buf) ++ p)
            buf := by
  induction keys with
  | nil => intro buf; rfl
  | cons k rest ih =>
    intro buf
    rw [List.foldl_cons, ih, List.flatMap_cons, List.foldl_append]

/-- `Encode` writes the pairs `key=value`, the keys in ascending order and the
values of a key in their order, joined by `&`. -/
theorem Encode_eq (v : Values) :
    v.Encode = joinAmp ((sortKeys (v.map Prod.fst)).flatMap (pairsOf v)) := by
  have h1 : v.Encode
      = (sortKeys (v.map Prod.fst)).foldl
          (fun (buf : GoString) k =>
            (pairsOf v k).foldl
              (fun (buf : GoString) p =>
                (if buf.length > 0 then buf ++ [38] else buf) ++ p) buf)
          [] := by
    unfold Values.Encode
    congr 1
    funext buf k
    unfold pairsOf
    rw [List.foldl_map]
    congr 1
    funext x y
    simp [encodePair, List.append_assoc]
  rw [h1, foldl_flatMap_keys, foldl_amp]
  intro p hp
  rw [List.mem_flatMap] at hp
  obtain ⟨k, _, hk⟩ := hp
  unfold pairsOf at hk
  rw [List.mem_map] at hk
  obtain ⟨val, _, rfl⟩ := hk
  simp [encodePair]

theorem Encode_congr (v w : Values) (h : sameMap v w) : v.Encode = w.Encode := by
  obtain ⟨hv, hw, hk, hl⟩ := h
  have hperm : (v.map Prod.fst).Perm (w.map Prod.fst) :=
    (List.perm_ext_iff_of_nodup hv hw).mpr hk
  rw [Encode_eq, Encode_eq, sortKeys_of_perm _ _ hperm]
  congr 1
  apply List.flatMap_congr
  intro k _
  simp [pairsOf, hl k]

theorem sameMap_Add (v w : Values) (key value : GoString) (h : sameMap v w) :
    sameMap (v.Add key value) (w.Add key value) := by
  obtain ⟨hv, hw, hk, hl⟩ := h
  refine ⟨nodup_keys_Add v key value hv, nodup_keys_Add w key value hw, ?_, ?_⟩
  · intro k
    rw [mem_keys_Add, mem_keys_Add, hk k]
  · intro k
    by_cases hkk : k = key
    · subst hkk
      rw [lookup_Add_self, lookup_Add_self, hl]
    · rw [lookup_Add_other _ _ _ _ hkk, lookup_Add_other _ _ _ _ hkk, hl]

theorem parseParameters_lookup_absent (lib : Stdlib) (params : List (GoString × Value))
    (key : GoString) (h : key ∉ params.map Prod.fst) :
    (parseParameters lib params).lookup key = [] := by
  rw [parseParameters_eq, foldl_lookup, filterMap_absent lib key params h]
  rfl

theorem sameMap_parseParameters (lib : Stdlib) (params params' : List (GoString × Value))
    (hnd : (params.map Prod.fst).Nodup) (hperm : params'.Perm params) :
    sameMap (parseParameters lib params') (parseParameters lib params) := by
  have hnd' : (params'.map Prod.fst).Nodup := ((hperm.map Prod.fst).nodup_iff).mpr hnd
  refine ⟨nodup_keys_parseParameters lib params', nodup_keys_parseParameters lib params, ?_, ?_⟩
  · intro k
    rw [mem_keys_parseParameters, mem_keys_parseParameters]
    constructor
    · rintro ⟨e, he, h⟩
      exact ⟨e, hperm.mem_iff.mp he, h⟩
    · rintro ⟨e, he, h⟩
      exact ⟨e, hperm.mem_iff.mpr he, h⟩
  · intro k
    by_cases hk : k ∈ params.map Prod.fst
    · obtain ⟨e, he, rfl⟩ := List.mem_map.mp hk
      have hm : (e.1, e.2) ∈ params := he
      have hm' : (e.1, e.2) ∈ params' := hperm.mem_iff.mpr he
      rw [parseParameters_lookup lib params hnd e.1 e.2 hm,
        parseParameters_lookup lib params' hnd' e.1 e.2 hm']
    · have hk' : k ∉ params'.map Prod.fst := fun h => hk ((hperm.map Prod.fst).mem_iff.mp h)
      rw [parseParameters_lookup_absent lib params k hk,
        parseParameters_lookup_absent lib params' k hk']

/-! ## C16: the encoding does not depend on the order of the map -/

theorem sameMap_nil_iff (v w : Values) (h : sameMap v w) : v = [] ↔ w = [] := by
  obtain ⟨_, _, hk, _⟩ := h
  constructor
  · intro hv
    subst hv
    cases w with
    | nil => rfl
    | cons e rest =>
      have := (hk e.1).mpr (by simp)
      simp at this
  · intro hw
    subst hw
    cases v with
    | nil => rfl
    | cons e rest =>
      have := (hk e.1).mp (by simp)
      simp at this

/-- The first part of `auth` on two requests that differ only in the order of
the entries of their parameters: the same panic, the same error, or the same
secret and the same data to sign. -/
theorem authData_congr (api : Api) (now : Int) (hh : Option HttpRequest) (p : GoString)
    (v v' : Values) (h : sameMap v' v) :
    (api.authData now ⟨hh, p, v'⟩ = .panic ∧ api.authData now ⟨hh, p, v⟩ = .panic)
    ∨ (∃ e q' q, api.authData now ⟨hh, p, v'⟩ = .ret (q', .error e)
        ∧ api.authData now ⟨hh, p, v⟩ = .ret (q, .error e))
    ∨ (∃ secret data, api.authData now ⟨hh, p, v'⟩
          = .ret (withTonce now ⟨hh, p, v'⟩, .ok (secret, data))
        ∧ api.authData now ⟨hh, p, v⟩ = .ret (withTonce now ⟨hh, p, v⟩, .ok (secret, data))
        ∧ (withTonce now ⟨hh, p, v'⟩).Parameters.Encode
          = (withTonce now ⟨hh, p, v⟩).Parameters.Encode) := by
  have hE : (withTonce now ⟨hh, p, v'⟩).Parameters.Encode
      = (withTonce now ⟨hh, p, v⟩).Parameters.Encode :=
    Encode_congr _ _ (sameMap_Add v' v _ _ h)
  cases p with
  | nil => exact Or.inl ⟨authData_nil api now _ rfl, authData_nil api now _ rfl⟩
  | cons c rest =>
    cases hd : versionDigit (c :: rest) with
    | none =>
      exact Or.inr (Or.inl ⟨_, _, _,
        authData_no_digit api now ⟨hh, c :: rest, v'⟩ c rest rfl hd,
        authData_no_digit api now ⟨hh, c :: rest, v⟩ c rest rfl hd⟩)
    | some ver =>
      by_cases hv : 2 < ver
      · exact Or.inr (Or.inl ⟨_, _, _,
          authData_bad_version api now ⟨hh, c :: rest, v'⟩ ver hd hv,
          authData_bad_version api now ⟨hh, c :: rest, v⟩ ver hd hv⟩)
      · have hv2 : ver ≤ 2 := by omega
        have k' := authData_version api now ⟨hh, c :: rest, v'⟩ ver hd hv2
        have k := authData_version api now ⟨hh, c :: rest, v⟩ ver hd hv2
        cases hs : DecodeString api.ApiSecret with
        | error e =>
          rw [hs] at k k'
          exact Or.inr (Or.inl ⟨e, _, _, k', k⟩)
        | ok secret =>
          rw [hs] at k k'
          have hed : encodedData (ver : Int) (withTonce now ⟨hh, c :: rest, v'⟩)
              = encodedData (ver : Int) (withTonce now ⟨hh, c :: rest, v⟩) := by
            unfold encodedData
            rw [hE]
            rfl
          rw [hed] at k'
          cases he : encodedData (ver : Int) (withTonce now ⟨hh, c :: rest, v⟩) with
          | panic =>
            rw [he] at k k'
            exact Or.inl ⟨k', k⟩
          | ret data =>
            rw [he] at k k'
            exact Or.inr (Or.inr ⟨secret, data, k', k, hE⟩)

theorem signedData_congr (api : Api) (now : Int) (hh : Option HttpRequest) (p : GoString)
    (v v' : Values) (h : sameMap v' v) :
    api.signedData now ⟨hh, p, v'⟩ = api.signedData now ⟨hh, p, v⟩ := by
  rcases authData_congr api now hh p v v' h with ⟨h1, h2⟩ | ⟨_, _, _, h1, h2⟩
    | ⟨_, _, h1, h2, _⟩ <;> simp [Api.signedData, h1, h2]

theorem callPrivate_congr (lib : Stdlib) (api : Api) (now : Int) (p : GoString)
    (v v' : Values) (url : URL) (h : sameMap v' v) :
    api.callPrivate lib now ⟨none, p, v'⟩ url = api.callPrivate lib now ⟨none, p, v⟩ url := by
  cases hn : NewRequest lib (lit "POST") (lib.urlString { url with Host := lit "mtgox.com" }) with
  | error e =>
    rw [callPrivate_of_error lib api now _ url e hn, callPrivate_of_error lib api now _ url e hn]
  | ok h0 =>
    rw [callPrivate_of_newRequest lib api now _ url h0 hn,
      callPrivate_of_newRequest lib api now _ url h0 hn]
    rcases authData_congr api now (some h0) p v v' h with ⟨h1, h2⟩ | ⟨_, _, _, h1, h2⟩
      | ⟨_, _, h1, h2, hE⟩
    · simp only [h1, h2]
    · simp only [h1, h2]
    · simp only [h1, h2, signedRequest, hE]

theorem callPublic_congr (lib : Stdlib) (v v' : Values) (url : URL) (h : sameMap v' v) :
    Api.callPublic lib v' url = Api.callPublic lib v url := by
  rw [callPublic_eq, callPublic_eq, Encode_congr v' v h]
  by_cases hv : v = []
  · have hv' : v' = [] := (sameMap_nil_iff v' v h).mpr hv
    simp [hv, hv']
  · have hv' : v' ≠ [] := fun e => hv ((sameMap_nil_iff v' v h).mp e)
    simp [hv, hv']

/-- C16: `Encode` lists the pairs `key=value` in ascending order of the keys,
joined by `&`; for an input map with unique keys the encoded parameter string,
without the nonce and with it, is the same for every order in which
`parseParameters` visits the entries, and so are the data that `auth` signs and
the request that `Call` builds. -/
theorem encoding_is_canonical (lib : Stdlib) (api : Api) (now : Int) (path : GoString)
    (hh : Option HttpRequest) (params params' : List (GoString × Value))
    (hnd : (params.map Prod.fst).Nodup) (hperm : params'.Perm params) :
    (∀ v : Values, ∃ keys : List GoString,
        keys.Perm (v.map Prod.fst)
        ∧ keys.Pairwise (fun a b => strLE a b = true)
        ∧ v.Encode = joinAmp (keys.flatMap fun k => (v.lookup k).map fun val =>
            QueryEscape k ++ [61] ++ QueryEscape val))
    ∧ (parseParameters lib params').Encode = (parseParameters lib params).Encode
    ∧ ((parseParameters lib params').Add (lit "tonce") (FormatInt (Int.tdiv now 1000))).Encode
        = ((parseParameters lib params).Add (lit "tonce") (FormatInt (Int.tdiv now 1000))).Encode
    ∧ api.signedData now ⟨hh, path, parseParameters lib params'⟩
        = api.signedData now ⟨hh, path, parseParameters lib params⟩
    ∧ api.buildRequest lib now path params' = api.buildRequest lib now path params := by
  have hs := sameMap_parseParameters lib params params' hnd hperm
  refine ⟨?_, Encode_congr _ _ hs, Encode_congr _ _ (sameMap_Add _ _ _ _ hs),
    signedData_congr api now hh path _ _ hs, ?_⟩
  · intro v
    exact ⟨sortKeys (v.map Prod.fst), sortKeys_perm _, sortKeys_sorted _, Encode_eq v⟩
  · cases hu : lib.urlParse (lit "https://data.mtgox.com/api/" ++ TrimLeft path) with
    | error e =>
      rw [buildRequest_of_url_error lib api now path params' e hu,
        buildRequest_of_url_error lib api now path params e hu]
    | ok url =>
      rw [buildRequest_of_url lib api now path params' url hu,
        buildRequest_of_url lib api now path params url hu,
        callPrivate_congr lib api now _ _ _ url hs, callPublic_congr lib _ _ url hs]

/-- C16 at the map `{"b": 2, "a": true}` visited in its two orders. -/
theorem encoding_is_canonical_witness :
    (parseParameters sampleLib [(lit "a", .bool true), (lit "b", .int 2)]).Encode
      = (parseParameters sampleLib [(lit "b", .int 2), (lit "a", .bool true)]).Encode :=
  (encoding_is_canonical sampleLib sampleApi 1000000000 (lit "2/money/info") none
    [(lit "b", .int 2), (lit "a", .bool true)] [(lit "a", .bool true), (lit "b", .int 2)]
    (by decide) (List.Perm.swap _ _ _)).2.1

/-! ## C17: the nonce in the signed data -/

theorem FormatUint_injective (a b : Nat) (h : FormatUint a = FormatUint b) : a = b := by
  have ha : a ≤ 2 ^ (a + b) - 1 := by
    have : a + b < 2 ^ (a + b) := Nat.lt_two_pow (a + b)
    omega
  have hb : b ≤ 2 ^ (a + b) - 1 := by
    have : a + b < 2 ^ (a + b) := Nat.lt_two_pow (a + b)
    omega
  have h1 := ParseUint_FormatUint a (a + b) ha
  have h2 := ParseUint_FormatUint b (a + b) hb
  rw [h, h2] at h1
  injection h1 with h1
  exact h1.symm

theorem FormatUint_head (n : Nat) : ∃ c rest, FormatUint n = c :: rest ∧ c ≠ 45 := by
  obtain ⟨d, rest, hd, _, he⟩ := digitsAux_head (n + 1) n [] (Nat.lt_succ_self n)
  exact ⟨_, rest, he, (digit_byte d hd).2.2.2.1⟩

theorem FormatInt_injective (a b : Int) (h : FormatInt a = FormatInt b) : a = b := by
  obtain ⟨ca, ra, hea, hca⟩ := FormatUint_head a.natAbs
  obtain ⟨cb, rb, heb, hcb⟩ := FormatUint_head b.natAbs
  by_cases ha : a < 0
  · by_cases hb : b < 0
    · simp only [FormatInt, ha, hb, if_true] at h
      injection h with _ h
      have := FormatUint_injective _ _ h
      omega
    · simp only [FormatInt, ha, hb, if_true, if_false] at h
      rw [heb] at h
      injection h with h _
      exact absurd h.symm hcb
  · by_cases hb : b < 0
    · simp only [FormatInt, ha, hb, if_true, if_false] at h
      rw [hea] at h
      injection h with h _
      exact absurd h hca
    · simp only [FormatInt, ha, hb, if_false] at h
      have := FormatUint_injective _ _ h
      omega

set_option maxRecDepth 100000 in
theorem escape_plain_byte (c : UInt8) : (c = 45 ∨ (48 ≤ c ∧ c ≤ 57)) →
    (if c = 32 then [43]
      else if shouldEscape c then [37, upperhex (c.toNat / 16), upperhex (c.toNat % 16)]
      else [c]) = [c] := by
  revert c
  apply byte_cases
  decide

theorem QueryEscape_plain (s : GoString) (h : ∀ c ∈ s, c = 45 ∨ (48 ≤ c ∧ c ≤ 57)) :
    QueryEscape s = s := by
  induction s with
  | nil => rfl
  | cons c rest ih =>
    have hc := escape_plain_byte c (h c (List.mem_cons_self _ _))
    have hr := ih (fun x hx => h x (List.mem_cons_of_mem _ hx))
    unfold QueryEscape at hr ⊢
    rw [List.flatMap_cons, hc, hr]
    rfl

theorem QueryEscape_FormatInt (n : Int) : QueryEscape (FormatInt n) = FormatInt n := by
  apply QueryEscape_plain
  intro c hc
  have hd : ∀ x ∈ FormatUint n.natAbs, 48 ≤ x ∧ x ≤ 57 := by
    intro x hx
    rcases digitsAux_digits _ _ _ x hx with h | h
    · exact h
    · cases h
  by_cases hneg : n < 0
  · simp only [FormatInt, hneg, if_true, List.mem_cons] at hc
    rcases hc with h | h
    · exact Or.inl h
    · exact Or.inr (hd c h)
  · simp only [FormatInt, hneg, if_false] at hc
    exact Or.inr (hd c hc)

/-- The encoding of a map to which a value is added under a key: the same
bytes before and after the escaped value, whatever the value. -/
theorem Encode_Add_split (v : Values) (key : GoString) (hnd : (v.map Prod.fst).Nodup) :
    ∃ A B : GoString, ∀ value, (v.Add key value).Encode = A ++ QueryEscape value ++ B := by
  have hkeys : ∀ value, (v.Add key value).map Prod.fst = (v.Add key []).map Prod.fst := by
    intro value
    rw [keys_Add, keys_Add]
  have hmem : key ∈ sortKeys ((v.Add key []).map Prod.fst) :=
    (sortKeys_perm _).mem_iff.mpr ((mem_keys_Add v key [] key).mpr (Or.inr rfl))
  have hndK : (sortKeys ((v.Add key []).map Prod.fst)).Nodup :=
    ((sortKeys_perm _).nodup_iff).mpr (nodup_keys_Add v key [] hnd)
  obtain ⟨K1, K2, hK⟩ := List.append_of_mem hmem
  rw [hK] at hndK
  have hdis := List.nodup_append.mp hndK
  have hk1 : key ∉ K1 := fun h => hdis.2.2 h (List.mem_cons_self _ _)
  have hk2 : key ∉ K2 := (List.nodup_cons.mp hdis.2.1).1
  have hother : ∀ value (K : List GoString), key ∉ K →
      K.flatMap (pairsOf (v.Add key value)) = K.flatMap (pairsOf v) := by
    intro value K hK'
    apply List.flatMap_congr
    intro k hk
    have hne : k ≠ key := fun e => hK' (e ▸ hk)
    simp [pairsOf, lookup_Add_other _ _ _ _ hne]
  refine ⟨(K1.flatMap (pairsOf v) ++ pairsOf v key).flatMap (fun x => x ++ [38])
      ++ QueryEscape key ++ [61],
    (K2.flatMap (pairsOf v)).flatMap (fun q => 38 :: q), ?_⟩
  intro value
  have hself : pairsOf (v.Add key value) key = pairsOf v key ++ [encodePair key value] := by
    simp [pairsOf, lookup_Add_self]
  rw [Encode_eq, hkeys value, hK, List.flatMap_append, List.flatMap_cons,
    hother value K1 hk1, hother value K2 hk2, hself]
  have hshape : K1.flatMap (pairsOf v)
        ++ ((pairsOf v key ++ [encodePair key value]) ++ K2.flatMap (pairsOf v))
      = (K1.flatMap (pairsOf v) ++ pairsOf v key)
        ++ encodePair key value :: K2.flatMap (pairsOf v) := by
    simp
  rw [hshape, joinAmp_split]
  simp [encodePair, List.append_assoc]

theorem Encode_Add_injective (v : Values) (key s1 s2 : GoString)
    (hnd : (v.map Prod.fst).Nodup)
    (h : (v.Add key s1).Encode = (v.Add key s2).Encode) : QueryEscape s1 = QueryEscape s2 := by
  obtain ⟨A, B, hAB⟩ := Encode_Add_split v key hnd
  rw [hAB s1, hAB s2, List.append_assoc, List.append_assoc] at h
  exact List.append_cancel_right (List.append_cancel_left h)

/-- C17: for every path and every parameters (a map: no key twice), two runs
of `auth` whose nonces differ sign different data whenever both get as far as
signing; and both do, for a path of version 0 or 1, or of version 2 with at
least two bytes, and a secret that decodes. -/
theorem distinct_nonces_distinct_payloads (api : Api) (now1 now2 : Int) (request : Request)
    (hnd : (request.Parameters.map Prod.fst).Nodup)
    (hne : Int.tdiv now1 1000 ≠ Int.tdiv now2 1000) :
    (∀ d1 d2, api.signedData now1 request = some d1 → api.signedData now2 request = some d2 →
        d1 ≠ d2)
    ∧ (∀ v secret, versionDigit request.Path = some v → v ≤ 2 →
        (v = 2 → 2 ≤ request.Path.length) → DecodeString api.ApiSecret = .ok secret →
        ∃ d1 d2, api.signedData now1 request = some d1 ∧ api.signedData now2 request = some d2
          ∧ d1 ≠ d2) := by
  have hEne : (withTonce now1 request).Parameters.Encode
      ≠ (withTonce now2 request).Parameters.Encode := by
    intro h
    have := Encode_Add_injective request.Parameters (lit "tonce") _ _ hnd h
    rw [QueryEscape_FormatInt, QueryEscape_FormatInt] at this
    exact hne (FormatInt_injective _ _ this)
  have hdata : ∀ now d, api.signedData now request = some d →
      ∃ pre : GoString, (∀ now', ∀ d', api.signedData now' request = some d' →
          d' = pre ++ (withTonce now' request).Parameters.Encode)
        ∧ d = pre ++ (withTonce now request).Parameters.Encode := by
    intro now d hd
    have shape : ∀ now' d', api.signedData now' request = some d' →
        ∃ v, versionDigit request.Path = some v ∧ v ≤ 2
          ∧ encodedData v (withTonce now' request) = .ret d' := by
      intro now' d' hd'
      unfold Api.signedData at hd'
      cases hA : api.authData now' request with
      | panic => simp [hA] at hd'
      | ret p =>
        obtain ⟨r, x⟩ := p
        cases x with
        | error e => simp [hA] at hd'
        | ok sd =>
          obtain ⟨secret, data⟩ := sd
          simp [hA] at hd'
          subst hd'
          obtain ⟨v, hv, hv2, _, _, he⟩ := authData_ok_inv api now' request r secret data hA
          exact ⟨v, hv, hv2, he⟩
    obtain ⟨v, hv, _, _⟩ := shape now d hd
    have pre_of : ∀ now' d', api.signedData now' request = some d' →
        d' = (if v = 2 then request.Path.drop 2 ++ [0] else [])
          ++ (withTonce now' request).Parameters.Encode := by
      intro now' d' hd'
      obtain ⟨v', hv', _, he'⟩ := shape now' d' hd'
      rw [hv] at hv'
      injection hv' with hv'
      subst hv'
      rcases encodedData_cases v (withTonce now' request) with ⟨_, _, e⟩ | ⟨h2, _, e⟩ | ⟨h2, e⟩
      · rw [e] at he'
        cases he'
      · rw [e] at he'
        cases he'
        simp [h2, withTonce]
      · rw [e] at he'
        cases he'
        simp [h2]
    exact ⟨_, pre_of, pre_of now d hd⟩
  have hcond : ∀ d1 d2, api.signedData now1 request = some d1 →
      api.signedData now2 request = some d2 → d1 ≠ d2 := by
    intro d1 d2 h1 h2 heq
    obtain ⟨pre, hpre, e1⟩ := hdata now1 d1 h1
    have e2 := hpre now2 d2 h2
    rw [e1, e2] at heq
    exact hEne (List.append_cancel_left heq)
  refine ⟨hcond, ?_⟩
  intro v secret hv hv2 hlen hs
  obtain ⟨d1, _, hA1⟩ := authData_ok api now1 request v secret hv hv2 hlen hs
  obtain ⟨d2, _, hA2⟩ := authData_ok api now2 request v secret hv hv2 hlen hs
  have h1 : api.signedData now1 request = some d1 := by simp [Api.signedData, hA1]
  have h2 : api.signedData now2 request = some d2 := by simp [Api.signedData, hA2]
  exact ⟨d1, d2, h1, h2, hcond d1 d2 h1 h2⟩

/-- C17 at the path `2/money/info`, with a parameter and the clock at 1000000
and at 1000001 microseconds. -/
theorem distinct_nonces_distinct_payloads_witness :
    ∃ d1 d2,
      sampleApi.signedData 1000000000
          ⟨none, lit "2/money/info", [(lit "amount", [lit "5"])]⟩ = some d1
      ∧ sampleApi.signedData 1000001000
          ⟨none, lit "2/money/info", [(lit "amount", [lit "5"])]⟩ = some d2
      ∧ d1 ≠ d2 :=
  (distinct_nonces_distinct_payloads sampleApi 1000000000 1000001000
    ⟨none, lit "2/money/info", [(lit "amount", [lit "5"])]⟩ (by decide) (by decide)).2
    2 (lit "testsecret") (by decide) (by decide) (by decide) (by decide)

end Mtgox
